import Mathlib

/-!
Verification of the English-inflections engine
(`src/english_inflections/english_inflections.py`).

The Python module is embedded shallowly below:

* costs are exact rationals (`ℚ`); the data file's `i:<float>` fields are
  modelled by a decimal parser (optional minus sign, digits, optional
  fractional digits), which covers every value the claims exercise;
* Python `dict`s are insertion-ordered association lists (`dictGet` /
  `dictInsert`), matching CPython's ordered-dict semantics;
* strings are processed character-wise (`List Char`) so every definition
  evaluates inside the kernel; Python's `str.strip`, `str.split`,
  `str.lower`, negative indexing and `\W+` tokenization (for ASCII input)
  are reproduced by the corresponding helpers;
* `sorted(..., key=lambda x: (x[1], x[0]))` is modelled by a stable
  insertion sort over the same key order (cost, then code-point
  lexicographic string order), which computes the same list as CPython's
  stable sort.

Rational arithmetic is routed through `mkRat` (`qadd`, `qmin`, `qneg`)
because the kernel reduces `mkRat` but not `Rat.add`; the bridge lemmas
`qadd_eq` and `qmin_eq` restore ordinary `+` and `min` for abstract proofs.
-/

/-- Kernel-computable addition on `ℚ`. -/
def qadd (a b : ℚ) : ℚ := mkRat (a.num * b.den + b.num * a.den) (a.den * b.den)

/-- Kernel-computable negation on `ℚ`. -/
def qneg (a : ℚ) : ℚ := mkRat (-a.num) a.den

/-- Kernel-computable minimum on `ℚ` (Python `min` returns the first
argument on ties, as does this definition). -/
def qmin (a b : ℚ) : ℚ := if a ≤ b then a else b

theorem qadd_eq (a b : ℚ) : qadd a b = a + b := by
  unfold qadd
  rw [Rat.mkRat_eq_div, Rat.add_def]
  rw [Rat.normalize_eq_mkRat, Rat.mkRat_eq_div]

theorem qneg_eq (a : ℚ) : qneg a = -a := by
  unfold qneg
  rw [Rat.mkRat_eq_div]
  push_cast
  rw [neg_div, Rat.num_div_den a]

theorem qmin_eq (a b : ℚ) : qmin a b = min a b := (min_def a b).symm

/-- Lookup in an insertion-ordered dictionary (Python `d.get(k)`). -/
def dictGet {α : Type} (d : List (String × α)) (k : String) : Option α :=
  (d.find? (fun p => p.1 == k)).map (fun p => p.2)

/-- Update in an insertion-ordered dictionary (Python `d[k] = v`): an
existing key keeps its position and gets the new value, a new key is
appended.  (Keys are unique in every dictionary built here, so replacing
the first occurrence is the Python behaviour.) -/
def dictInsert {α : Type} : List (String × α) → String → α → List (String × α)
  | [], k, v => [(k, v)]
  | p :: ps, k, v => if p.1 == k then (k, v) :: ps else p :: dictInsert ps k v

/-- Python `s.split(sep)` for a single-character separator, over char
lists: `""` splits to `[""]`, separators at the ends produce empty pieces. -/
def splitOnCharAux (sep : Char) : List Char → List Char → List (List Char)
  | [], acc => [acc.reverse]
  | c :: cs, acc =>
    if c = sep then acc.reverse :: splitOnCharAux sep cs []
    else splitOnCharAux sep cs (c :: acc)

/-- Python `s.split(sep)` (single-character separator) on strings. -/
def splitStr (sep : Char) (s : String) : List String :=
  (splitOnCharAux sep s.toList []).map (fun cs => String.mk cs)

/-- Python `s.strip()` on a char list (ASCII whitespace). -/
def trimChars (cs : List Char) : List Char :=
  ((cs.dropWhile Char.isWhitespace).reverse.dropWhile Char.isWhitespace).reverse

/-- A word character in the sense of the regex `\W+` used by the module
(ASCII letters, digits and underscore). -/
def isWordChar (c : Char) : Bool := c.isAlphanum || c = '_'

/-- Splits a char list into maximal word-character runs, dropping empty
pieces: the effect of `[x for x in re.split(r"\W+", s) if x]`. -/
def tokensAux : List Char → List Char → List String
  | [], acc => if acc.isEmpty then [] else [String.mk acc.reverse]
  | c :: cs, acc =>
    if isWordChar c then tokensAux cs (c :: acc)
    else if acc.isEmpty then tokensAux cs []
    else String.mk acc.reverse :: tokensAux cs []

/-- Tokenization used by `Search` and `_InflectImpl`:
`[x for x in _re_word_boundary.split(phrase.strip()) if x]`. -/
def tokenize (phrase : String) : List String :=
  tokensAux (trimChars phrase.toList) []

/-- Python `" ".join(tokens)`. -/
def joinSp : List String → String
  | [] => ""
  | [t] => t
  | t :: ts => t ++ " " ++ joinSp ts

/-- The canonical form of a phrase: tokens rejoined with single spaces. -/
def canon (phrase : String) : String := joinSp (tokenize phrase)

/-- The module's `_inflection_costs` table, in source order. -/
def inflection_costs : List (String × ℚ) :=
  [("np", 1), ("vs", 1), ("vc", 1), ("vp", 1), ("vx", 1),
   ("ajc", 2), ("ajs", 2), ("avc", 2), ("avs", 2), ("a", 4)]

/-- `_inflection_costs.get(label)`. -/
def costOf (label : String) : Option ℚ := dictGet inflection_costs label

/-- `label in _inflection_costs`. -/
def isLabel (label : String) : Bool := (costOf label).isSome

/-- One record of the store: the recognized `label: [values]` entries in
insertion order (`forms`) and the optional occurrence cost (`i`).  The
Python record is a single dict mixing both; keeping `i` apart is
observationally equivalent because every consumer either looks labels up
by key or skips the `"i"` entry (it is not in `_inflection_costs`). -/
structure WordAttrs where
  forms : List (String × List String)
  i : Option ℚ
deriving DecidableEq

def emptyAttrs : WordAttrs := ⟨[], none⟩

/-- Python truthiness of a record dict (`if base_attrs:`): an empty dict
is falsy. -/
def attrsTruthy (a : WordAttrs) : Bool := !a.forms.isEmpty || a.i.isSome

/-- The store: `word_dict` (base form → record) and the inverted `index`
(inflected surface string → base forms, appended in load order). -/
structure Inflector where
  word_dict : List (String × WordAttrs)
  index : List (String × List String)
deriving DecidableEq

/-- `self.index.get(k) or []` (a `defaultdict(list)` read). -/
def indexGet (ix : List (String × List String)) (k : String) : List String :=
  (dictGet ix k).getD []

/-- `self.index[k].append(b)`. -/
def indexAppend (ix : List (String × List String)) (k b : String) :
    List (String × List String) :=
  dictInsert ix k (indexGet ix k ++ [b])

/-- Digits of an `i:` field as a natural number; `none` if empty or if a
non-digit occurs. -/
def digitsVal (cs : List Char) : Option ℕ :=
  if cs.isEmpty then none
  else
    cs.foldl
      (fun acc c =>
        match acc with
        | none => none
        | some n => if c.isDigit then some (10 * n + (c.toNat - 48)) else none)
      (some 0)

/-- Python `float(value)` restricted to the decimal forms that occur in
inflection data: optional minus sign, digits, optional `.` and fractional
digits.  Returns `none` where this parser fails; the Python constructor
raises there, aborting the load. -/
def parseFloat (s : String) : Option ℚ :=
  let signSplit : Bool × List Char :=
    match s.toList with
    | '-' :: rest => (true, rest)
    | cs => (false, cs)
  let mag : Option ℚ :=
    match splitOnCharAux '.' signSplit.2 [] with
    | [ip] => (digitsVal ip).map (fun n => mkRat (Int.ofNat n) 1)
    | [ip, fp] =>
      match digitsVal ip, digitsVal fp with
      | some n, some f =>
        some (qadd (mkRat (Int.ofNat n) 1) (mkRat (Int.ofNat f) (10 ^ fp.length)))
      | _, _ => none
    | _ => none
  mag.map (fun q => if signSplit.1 then qneg q else q)

/-- Processing of one tab-separated field during load (the body of
`for field in fields:` in `Inflector.__init__`).  The state is the record
being built together with the inverted index; `orig` is the line's first
field.  `none` models the uncaught `ValueError` of `float(value)`. -/
def procField (orig : String) (st : WordAttrs × List (String × List String))
    (field : String) : Option (WordAttrs × List (String × List String)) :=
  match splitStr ':' field with
  | [label, value] =>
    if isLabel label then
      let infls := splitStr ',' value
      some ({ st.1 with forms := dictInsert st.1.forms label infls },
            infls.dedup.foldl (fun ix infl => indexAppend ix infl orig) st.2)
    else if label = "i" then
      match parseFloat value with
      | some q => some ({ st.1 with i := some q }, st.2)
      | none => none
    else some st
  | _ => some st

/-- Folds `procField` over a line's fields. -/
def procFields (orig : String) :
    List String → WordAttrs × List (String × List String) →
    Option (WordAttrs × List (String × List String))
  | [], st => some st
  | f :: fs, st =>
    match procField orig st f with
    | none => none
    | some st2 => procFields orig fs st2

/-- Processing of one line of the data file: split on tabs after
stripping, skip lines with fewer than two fields, otherwise build the
record (the first field is also iterated over, as in the source) and
store it under the first field. -/
def procLine (inf : Inflector) (line : String) : Option Inflector :=
  if (splitStr '\t' (String.mk (trimChars line.toList))).length < 2 then some inf
  else
    match splitStr '\t' (String.mk (trimChars line.toList)) with
    | [] => some inf
    | f0 :: rest =>
      match procFields f0 (f0 :: rest) (emptyAttrs, inf.index) with
      | none => none
      | some st => some ⟨dictInsert inf.word_dict f0 st.1, st.2⟩

def loadFrom (inf : Inflector) : List String → Option Inflector
  | [] => some inf
  | l :: ls =>
    match procLine inf l with
    | none => none
    | some inf2 => loadFrom inf2 ls

/-- `Inflector.__init__`: loads the given data lines into a store. -/
def loadInflector (lines : List String) : Option Inflector :=
  loadFrom ⟨[], []⟩ lines

/-- A search candidate: base phrase, cost, matched form labels. -/
abbrev Cand := String × ℚ × List String

/-- The sort key order of `sorted(matches, key=lambda x: (x[1], x[0]))`:
cost first, then the candidate string, compared by code points as in
Python.  `candLE` is the reflexive version used by the stable sort. -/
def strLt : List Char → List Char → Bool
  | [], [] => false
  | [], _ :: _ => true
  | _ :: _, [] => false
  | a :: as, b :: bs => if a < b then true else if b < a then false else strLt as bs

def candLT (a b : Cand) : Bool :=
  if a.2.1 < b.2.1 then true
  else if b.2.1 < a.2.1 then false
  else strLt a.1.toList b.1.toList

def candLE (a b : Cand) : Bool := !candLT b a

/-- Stable insertion of a candidate after all entries that are `≤` it. -/
def insertCand (c : Cand) : List Cand → List Cand
  | [] => [c]
  | d :: ds => if candLE d c then d :: insertCand c ds else c :: d :: ds

/-- Stable ascending sort by `(cost, candidate string)`; agrees with
CPython's stable `sorted` under the same key. -/
def sortCands (l : List Cand) : List Cand :=
  l.foldl (fun acc c => insertCand c acc) []

/-- `base_attrs.get("i") or 20.0`: the occurrence cost used during
search.  Python's `or` falls back to `20.0` both when the key is absent
and when the stored float is `0.0` (which is falsy). -/
def searchIdf (attrs : WordAttrs) : ℚ :=
  match attrs.i with
  | some q => if q = 0 then 20 else q
  | none => 20

/-- The inner scan of a record's label lists (`for key, value in
base_attrs.items(): ...`): for each recognized label the running cost
starts at the label's table cost and grows by `3.0` for every
non-matching entry scanned before a match; labels that match contribute
to the minimum and are appended to the matched-label list. -/
def scanLabel (c : ℚ) (target : String) : List String → Option ℚ
  | [] => none
  | v :: vs => if v = target then some c else scanLabel (qadd c 3) target vs

def scanFormsAux (target : String) :
    List (String × List String) → ℚ × List String → ℚ × List String
  | [], acc => acc
  | kv :: rest, acc =>
    match costOf kv.1 with
    | none => scanFormsAux target rest acc
    | some c =>
      if c = 0 then scanFormsAux target rest acc
      else
        match scanLabel c target kv.2 with
        | none => scanFormsAux target rest acc
        | some mc => scanFormsAux target rest (qmin acc.1 mc, acc.2 ++ [kv.1])

def scanForms (target : String) (forms : List (String × List String)) :
    ℚ × List String :=
  scanFormsAux target forms (10, [])

/-- The candidate produced for one base form reached through the index
during step 3 of `Search` (`None` when the record is missing or falsy). -/
def candFor (inf : Inflector) (orig b : String) : Option Cand :=
  match dictGet inf.word_dict b with
  | none => none
  | some attrs =>
    if attrsTruthy attrs then
      let sc := scanForms orig attrs.forms
      some (b, qadd (searchIdf attrs) sc.1, sc.2)
    else none

/-- Step 3 of `Search`: walk the inverted-index entry for the canonical
phrase, skipping bases already in `uniq_bases` and bases with falsy
records, appending one candidate per remaining base. -/
def step3 (inf : Inflector) (orig : String) :
    List String → List String → List Cand → List Cand × List String
  | [], uniq, acc => (acc, uniq)
  | b :: bs, uniq, acc =>
    if uniq.contains b then step3 inf orig bs uniq acc
    else
      match candFor inf orig b with
      | none => step3 inf orig bs uniq acc
      | some c => step3 inf orig bs (uniq ++ [b]) (acc ++ [c])

/-- The candidate produced for one substituted base during the
multi-token pass (step 4): the cross-token penalty `20.0` is added to the
occurrence cost, and the label scan matches the original single token. -/
def candFor4 (inf : Inflector) (token base_phrase b : String) : Option Cand :=
  match dictGet inf.word_dict b with
  | none => none
  | some attrs =>
    if attrsTruthy attrs then
      let sc := scanForms token attrs.forms
      some (base_phrase, qadd (qadd (searchIdf attrs) 20) sc.1, sc.2)
    else none

/-- The inner loop of step 4 for one token position: candidate bases are
the token itself followed by the index entry for the token. -/
def step4Tok (inf : Inflector) (tokens : List String) (i : ℕ) (token : String) :
    List String → List String → List Cand → List Cand × List String
  | [], uniq, acc => (acc, uniq)
  | b :: bs, uniq, acc =>
    if uniq.contains (joinSp (tokens.set i b)) then
      step4Tok inf tokens i token bs uniq acc
    else
      match candFor4 inf token (joinSp (tokens.set i b)) b with
      | none => step4Tok inf tokens i token bs uniq acc
      | some c =>
        step4Tok inf tokens i token bs (uniq ++ [joinSp (tokens.set i b)]) (acc ++ [c])

/-- Step 4 of `Search`: iterate the token positions in order. -/
def step4 (inf : Inflector) (tokens : List String) :
    List ℕ → List String → List Cand → List Cand × List String
  | [], uniq, acc => (acc, uniq)
  | i :: is, uniq, acc =>
    step4 inf tokens is
      (step4Tok inf tokens i (tokens.getD i "")
        (tokens.getD i "" :: indexGet inf.index (tokens.getD i "")) uniq acc).2
      (step4Tok inf tokens i (tokens.getD i "")
        (tokens.getD i "" :: indexGet inf.index (tokens.getD i "")) uniq acc).1

/-- Steps 1-3 of `Search`: the whole-phrase candidate (guarded by record
truthiness) followed by the index-driven candidates; also returns the
final `uniq_bases` (which starts as `{orig_phrase}`). -/
def searchMatches23 (inf : Inflector) (phrase : String) :
    List Cand × List String :=
  let orig := canon phrase
  let m1 : List Cand :=
    match dictGet inf.word_dict orig with
    | some attrs =>
      if attrsTruthy attrs then [(orig, searchIdf attrs, ["o"])] else []
    | none => []
  step3 inf orig (indexGet inf.index orig) [orig] m1

/-- `Inflector.Search`: the ranked candidate list.  The multi-token pass
runs only when the sorted step-2/3 list is empty and the phrase has more
than one token; the result is sorted again at the end (as in the source,
which sorts at both points). -/
def Search (inf : Inflector) (phrase : String) : List Cand :=
  let tokens := tokenize phrase
  let p := searchMatches23 inf phrase
  let sorted1 := sortCands p.1
  let final :=
    if sorted1.isEmpty ∧ 1 < tokens.length then
      (step4 inf tokens (List.range tokens.length) p.2 sorted1).1
    else sorted1
  sortCands final

/-- `Inflector.LookupPhraseInfo` (the defensive copy is identity here;
`attrs.copy() if attrs else None` yields `None` for a falsy record). -/
def LookupPhraseInfo (inf : Inflector) (phrase : String) : Option WordAttrs :=
  match dictGet inf.word_dict phrase with
  | some attrs => if attrsTruthy attrs then some attrs else none
  | none => none

/-- Reversed lower-cased characters of a word: all suffix regexes in the
module are case-insensitive (`(?i)`), so tests run on this list. -/
def revLower (w : String) : List Char := (w.toList.map Char.toLower).reverse

def listPrefix : List Char → List Char → Bool
  | [], _ => true
  | _ :: _, [] => false
  | a :: as, b :: bs => a = b && listPrefix as bs

/-- Case-insensitive suffix test (`re.search(r"(?i)suf$", word)`). -/
def endsCI (w : String) (suf : String) : Bool :=
  listPrefix suf.toList.reverse (revLower w)

/-- Python `word[:-n]` (n small). -/
def strDropRight (w : String) (n : ℕ) : String :=
  String.mk ((w.toList.reverse.drop n).reverse)

/-- Python `word[-1]` as a string (callers only use it on words long
enough for the short-vowel-consonant test to have matched). -/
def strLast (w : String) : String := String.mk (w.toList.reverse.take 1).reverse

def isVowel (c : Char) : Bool :=
  c = 'a' || c = 'e' || c = 'i' || c = 'o' || c = 'u'

/-- `_re_ending_vowel_y`: `[aeiou]y$`, case-insensitive. -/
def endsVowelY (w : String) : Bool :=
  match revLower w with
  | 'y' :: v :: _ => isVowel v
  | _ => false

/-- `_re_ending_short_vowel_consonant`: `[aeiou][^aeiouyx]$`. -/
def endsShortVC (w : String) : Bool :=
  match revLower w with
  | c :: v :: _ => !isVowel c && c ≠ 'y' && c ≠ 'x' && isVowel v
  | _ => false

/-- `_re_ending_long_vowel_consonant`: `[aeiou]{2,}[^aeiouyx]$` (two
vowels immediately before the final character suffice for a match). -/
def endsLongVC (w : String) : Bool :=
  match revLower w with
  | c :: v1 :: v2 :: _ => !isVowel c && c ≠ 'y' && c ≠ 'x' && isVowel v1 && isVowel v2
  | _ => false

/-- `GenerateNounPlural`.  The `(fe|f)$` substitution tries `fe` first,
as regex alternation does. -/
def GenerateNounPlural (word : String) : String :=
  if endsCI word "fe" then strDropRight word 2 ++ "ves"
  else if endsCI word "f" then strDropRight word 1 ++ "ves"
  else if endsCI word "o" || endsCI word "s" || endsCI word "ch" ||
      endsCI word "sh" || endsCI word "x" then word ++ "es"
  else if endsVowelY word then word ++ "s"
  else if endsCI word "y" then strDropRight word 1 ++ "ies"
  else word ++ "s"

/-- `GenerateVerbSingular`. -/
def GenerateVerbSingular (word : String) : String :=
  if endsCI word "o" || endsCI word "s" || endsCI word "ch" ||
      endsCI word "sh" || endsCI word "x" then word ++ "es"
  else if endsVowelY word then word ++ "s"
  else if endsCI word "y" then strDropRight word 1 ++ "ies"
  else word ++ "s"

/-- `GenerateVerbPresentParticiple`. -/
def GenerateVerbPresentParticiple (word : String) : String :=
  if endsCI word "ie" then strDropRight word 2 ++ "ying"
  else if endsCI word "e" then strDropRight word 1 ++ "ing"
  else if endsLongVC word then word ++ "ing"
  else if endsShortVC word then word ++ strLast word ++ "ing"
  else word ++ "ing"

/-- `GenerateVerbPast` (the second `y$` branch is unreachable but kept,
as in the source). -/
def GenerateVerbPast (word : String) : String :=
  if endsVowelY word then word ++ "ed"
  else if endsCI word "y" then strDropRight word 1 ++ "ied"
  else if endsLongVC word then word ++ "ed"
  else if endsShortVC word then word ++ strLast word ++ "ed"
  else if endsCI word "y" then strDropRight word 1 ++ "ied"
  else if endsCI word "e" then word ++ "d"
  else word ++ "ed"

/-- `GenerateVerbPastParticiple`: delegates to `GenerateVerbPast`. -/
def GenerateVerbPastParticiple (word : String) : String :=
  GenerateVerbPast word

/-- `GenerateAdjectiveComparative`. -/
def GenerateAdjectiveComparative (word : String) : String :=
  if endsVowelY word then word ++ "er"
  else if endsCI word "y" then strDropRight word 1 ++ "ier"
  else if endsLongVC word then word ++ "er"
  else if endsShortVC word then word ++ strLast word ++ "er"
  else if endsCI word "y" then strDropRight word 1 ++ "ier"
  else if endsCI word "e" then word ++ "r"
  else word ++ "er"

/-- `GenerateAdjectiveSuperative`. -/
def GenerateAdjectiveSuperative (word : String) : String :=
  if endsVowelY word then word ++ "est"
  else if endsCI word "y" then strDropRight word 1 ++ "iest"
  else if endsLongVC word then word ++ "est"
  else if endsShortVC word then word ++ strLast word ++ "est"
  else if endsCI word "y" then strDropRight word 1 ++ "iest"
  else if endsCI word "e" then word ++ "st"
  else word ++ "est"

/-- `GenerateAdverbComparative`: delegates to the adjective rule. -/
def GenerateAdverbComparative (word : String) : String :=
  GenerateAdjectiveComparative word

/-- `GenerateAdverbSuperative`: delegates to the adjective rule. -/
def GenerateAdverbSuperative (word : String) : String :=
  GenerateAdjectiveSuperative word

/-- A value of the result attribute map of `_InflectImpl`: the original
phrase is a single string, label entries and the provenance lists are
string lists, and `_pi` is a number. -/
inductive OutVal
  | str (s : String)
  | strs (vs : List String)
  | num (q : ℚ)
deriving DecidableEq

abbrev ResultMap := List (String × OutVal)

/-- One `(focus position, label, generator)` triple of an inflect
operation list. -/
abbrev Op := Int × String × Option (String → String)

/-- `position >= 0` requires `position < len(tokens)`; a negative
position requires `abs(position) <= len(tokens)`. -/
def posInRange (pos : Int) (n : ℕ) : Bool :=
  if 0 ≤ pos then pos < (n : Int) else pos.natAbs ≤ n

/-- Python list indexing for an in-range possibly negative index. -/
def posIndex (pos : Int) (n : ℕ) : ℕ :=
  if 0 ≤ pos then pos.toNat else n - pos.natAbs

/-- The first loop of `_InflectImpl`: whole-phrase store entries are
copied verbatim into the result, and their labels collected. -/
def phase1 (da : WordAttrs) :
    List Op → ResultMap → List String → ResultMap × List String
  | [], out, labels => (out, labels)
  | (_, label, _) :: rest, out, labels =>
    match dictGet da.forms label with
    | some vs =>
      if vs.isEmpty then phase1 da rest out labels
      else phase1 da rest (dictInsert out label (.strs vs)) (labels ++ [label])
    | none => phase1 da rest out labels

/-- The second loop of `_InflectImpl`: for every operation (including
ones already satisfied at phrase level) the focus token is resolved; an
out-of-range position skips the label, token store values are substituted
into the token list (one output phrase per value), and otherwise the
generator — when present — supplies a single fallback form. -/
def phase2 (inf : Inflector) (tokens : List String) :
    List Op → ResultMap → List String → ResultMap × List String
  | [], out, tlabels => (out, tlabels)
  | (pos, label, gen) :: rest, out, tlabels =>
    if posInRange pos tokens.length then
      match dictGet ((dictGet inf.word_dict
          (tokens.getD (posIndex pos tokens.length) "")).getD emptyAttrs).forms label with
      | some vs =>
        if vs.isEmpty then
          match gen with
          | none => phase2 inf tokens rest out tlabels
          | some g =>
            phase2 inf tokens rest
              (dictInsert out label
                (.strs [joinSp (tokens.set (posIndex pos tokens.length)
                  (g (tokens.getD (posIndex pos tokens.length) "")))]))
              tlabels
        else
          phase2 inf tokens rest
            (dictInsert out label
              (.strs (vs.map (fun v =>
                joinSp (tokens.set (posIndex pos tokens.length) v)))))
            (tlabels ++ [label])
      | none =>
        match gen with
        | none => phase2 inf tokens rest out tlabels
        | some g =>
          phase2 inf tokens rest
            (dictInsert out label
              (.strs [joinSp (tokens.set (posIndex pos tokens.length)
                (g (tokens.getD (posIndex pos tokens.length) "")))]))
            tlabels
    else phase2 inf tokens rest out tlabels

/-- The record used for whole-phrase lookups by `_InflectImpl`
(`self.word_dict.get(orig_phrase) or {}`). -/
def inflectDa (inf : Inflector) (phrase : String) : WordAttrs :=
  (dictGet inf.word_dict (canon phrase)).getD emptyAttrs

def inflectP1 (inf : Inflector) (phrase : String) (ops : List Op) :
    ResultMap × List String :=
  phase1 (inflectDa inf phrase) ops [("o", .str (canon phrase))] []

/-- The result map after the `_ph` provenance entry. -/
def inflectOut2 (inf : Inflector) (phrase : String) (ops : List Op) : ResultMap :=
  if (inflectP1 inf phrase ops).2.isEmpty then (inflectP1 inf phrase ops).1
  else dictInsert (inflectP1 inf phrase ops).1 "_ph"
    (.strs (inflectP1 inf phrase ops).2)

/-- The result map after the `_pi` entry (`if idf:` keeps a present,
nonzero cost). -/
def inflectOut3 (inf : Inflector) (phrase : String) (ops : List Op) : ResultMap :=
  match (inflectDa inf phrase).i with
  | some q =>
    if q = 0 then inflectOut2 inf phrase ops
    else dictInsert (inflectOut2 inf phrase ops) "_pi" (.num q)
  | none => inflectOut2 inf phrase ops

/-- `Inflector._InflectImpl`: the whole-phrase pass, the early return
when every requested label was phrase-satisfied, then the token pass and
the `_th` provenance entry. -/
def InflectImpl (inf : Inflector) (phrase : String) (ops : List Op) : ResultMap :=
  if (inflectP1 inf phrase ops).2.length = ops.length then
    inflectOut3 inf phrase ops
  else
    if (phase2 inf (tokenize phrase) ops (inflectOut3 inf phrase ops) []).2.isEmpty then
      (phase2 inf (tokenize phrase) ops (inflectOut3 inf phrase ops) []).1
    else
      dictInsert (phase2 inf (tokenize phrase) ops (inflectOut3 inf phrase ops) []).1
        "_th" (.strs (phase2 inf (tokenize phrase) ops (inflectOut3 inf phrase ops) []).2)

def nounOpsG : List Op := [(-1, "np", some GenerateNounPlural)]

def verbOpsG : List Op :=
  [(0, "vs", some GenerateVerbSingular),
   (0, "vc", some GenerateVerbPresentParticiple),
   (0, "vp", some GenerateVerbPast),
   (0, "vx", some GenerateVerbPastParticiple)]

def adjOpsG : List Op :=
  [(0, "ajc", some GenerateAdjectiveComparative),
   (0, "ajs", some GenerateAdjectiveSuperative)]

def advOpsG : List Op :=
  [(-1, "avc", some GenerateAdverbComparative),
   (-1, "avs", some GenerateAdverbSuperative)]

def allOpsG : List Op := nounOpsG ++ verbOpsG ++ adjOpsG ++ advOpsG

/-- `if not fbgen: ops = [(x[0], x[1], None) for x in ops]`. -/
def stripGens (ops : List Op) : List Op := ops.map (fun x => (x.1, x.2.1, none))

def InflectNoun (inf : Inflector) (phrase : String) (fbgen : Bool) : ResultMap :=
  InflectImpl inf phrase (if fbgen then nounOpsG else stripGens nounOpsG)

def InflectVerb (inf : Inflector) (phrase : String) (fbgen : Bool) : ResultMap :=
  InflectImpl inf phrase (if fbgen then verbOpsG else stripGens verbOpsG)

def InflectAdjective (inf : Inflector) (phrase : String) (fbgen : Bool) : ResultMap :=
  InflectImpl inf phrase (if fbgen then adjOpsG else stripGens adjOpsG)

def InflectAdverb (inf : Inflector) (phrase : String) (fbgen : Bool) : ResultMap :=
  InflectImpl inf phrase (if fbgen then advOpsG else stripGens advOpsG)

def Inflect (inf : Inflector) (phrase : String) (fbgen : Bool) : ResultMap :=
  InflectImpl inf phrase (if fbgen then allOpsG else stripGens allOpsG)

/-- C1: for a store in which base form `run` has occurrence cost `3.0`
and `vc: ["running"]` (and no other record mentions `running`),
`Search "running"` returns exactly `[("run", 4.0, ["vc"])]`, the cost
being the occurrence cost `3.0` plus the `vc` category cost `1.0`. -/
theorem C1_search_running_exact :
    (loadInflector ["run\ti:3.0\tvc:running"]).map
        (fun inf => Search inf "running") = some [("run", 4, ["vc"])] ∧
    (4 : ℚ) = 3 + 1 :=
  ⟨by decide, by norm_num⟩

/-- C6: the suffix heuristics produce the reference outputs on the
spec's listed inputs. -/
theorem C6_heuristics_reference_outputs :
    GenerateNounPlural "box" = "boxes" ∧
    GenerateNounPlural "city" = "cities" ∧
    GenerateNounPlural "knife" = "knives" ∧
    GenerateVerbPresentParticiple "run" = "running" ∧
    GenerateVerbPresentParticiple "smile" = "smiling" ∧
    GenerateVerbPast "play" = "played" ∧
    GenerateVerbPast "cry" = "cried" ∧
    GenerateAdjectiveComparative "tall" = "taller" ∧
    GenerateAdjectiveComparative "happy" = "happier" := by
  decide

/-- C8: the past-participle and adverb heuristics are exact delegations:
for every word they agree with `GenerateVerbPast` and the adjective
comparative/superlative generators respectively. -/
theorem C8_delegations (word : String) :
    GenerateVerbPastParticiple word = GenerateVerbPast word ∧
    GenerateAdverbComparative word = GenerateAdjectiveComparative word ∧
    GenerateAdverbSuperative word = GenerateAdjectiveSuperative word :=
  ⟨rfl, rfl, rfl⟩

/-- C5: on a store where no whole-phrase match exists for `big dogs` and
base `dog` has occurrence cost `5.0` and `np:["dogs"]`,
`Search "big dogs"` includes (here: is exactly) the candidate
`("big dog", 26.0, ["np"])` with cost `5.0 + 20.0 + 1.0`; moreover the
multi-token substitution pass runs only when steps 2-3 produced no
candidates and the phrase has more than one token. -/
theorem C5_multi_token_substitution :
    ((loadInflector ["dog\ti:5.0\tnp:dogs"]).map
        (fun inf => Search inf "big dogs") = some [("big dog", 26, ["np"])] ∧
      (26 : ℚ) = 5 + 20 + 1) ∧
    ∀ inf phrase,
      Search inf phrase =
        sortCands
          (if (sortCands (searchMatches23 inf phrase).1).isEmpty ∧
              1 < (tokenize phrase).length then
            (step4 inf (tokenize phrase) (List.range (tokenize phrase).length)
              (searchMatches23 inf phrase).2
              (sortCands (searchMatches23 inf phrase).1)).1
          else sortCands (searchMatches23 inf phrase).1) :=
  ⟨⟨by decide, by norm_num⟩, fun inf phrase => rfl⟩

/-- C2 counterexample: three stores refute the claim as stated.
With `run` stored at cost `5.0` and `ant` (cost `4.0`) listing `run`
under `np`, both candidates cost `5` — no candidate is strictly cheaper
than `run`'s cost — yet `Search "run"` ranks `("ant", 5, ["np"])` above
`("run", 5, ["o"])` by the lexicographic tie-break.  With occurrence
cost `0.0`, the phrase candidate's cost is `20`, not the stored `c = 0`.
With a stored base form that is not in canonical token form
(`ice-cream`), `Search` of that very phrase returns no candidate at all. -/
theorem C2_counterexample :
    ((loadInflector ["run\ti:5.0", "ant\ti:4.0\tnp:run"]).map
        (fun inf => Search inf "run") =
      some [("ant", 5, ["np"]), ("run", 5, ["o"])] ∧ ¬((5 : ℚ) < 5)) ∧
    ((loadInflector ["run\ti:0.0\tvc:running"]).map
        (fun inf => Search inf "run") = some [("run", 20, ["o"])] ∧
      (20 : ℚ) ≠ 0) ∧
    (loadInflector ["ice-cream\ti:3.0"]).map
        (fun inf => Search inf "ice-cream") = some [] :=
  ⟨⟨by decide, by norm_num⟩, ⟨by decide, by norm_num⟩, by decide⟩

/-- C3 counterexample: a record loaded with `i:0.0` contributes idf
`20.0`, not `0.0`: Python's `or` treats the stored `0.0` as falsy, so
the candidate costs `20 + 1 = 21` rather than `0 + 1 = 1`. -/
theorem C3_counterexample :
    (loadInflector ["run\ti:0.0\tvc:running"]).map
        (fun inf => Search inf "running") = some [("run", 21, ["vc"])] ∧
    (21 : ℚ) = 20 + 1 ∧ (21 : ℚ) ≠ 0 + 1 :=
  ⟨by decide, by norm_num, by norm_num⟩

def infC4 : Inflector :=
  ⟨[("sheep", ⟨[("np", ["sheep"])], none⟩)], [("sheep", ["sheep"])]⟩

/-- C4 counterexample: the record `sheep np:["sheep"]` lists the base
form itself as its inflected value.  The inflect half of the round-trip
holds, but `Search "sheep"` only yields the `["o"]` candidate — the
index-driven loop skips the base because it already sits in
`uniq_bases` — so no candidate carries `np` in its matched labels. -/
theorem C4_counterexample :
    loadInflector ["sheep\tnp:sheep"] = some infC4 ∧
    dictGet (InflectNoun infC4 "sheep" false) "np" = some (.strs ["sheep"]) ∧
    Search infC4 "sheep" = [("sheep", 20, ["o"])] ∧
    ¬ ∃ c ∈ Search infC4 "sheep", c.1 = "sheep" ∧ "np" ∈ c.2.2 := by
  decide

/-- C9 counterexample: two data sources that differ only in an
`a:running` field yield stores whose `Search "running"` results differ —
the `a` label is in the cost table, so the loader indexes its values and
`Search` consumes them (cost `3 + 4`). -/
theorem C9_counterexample :
    (loadInflector ["run\ti:3.0\ta:running"]).map
        (fun inf => Search inf "running") = some [("run", 7, ["a"])] ∧
    (loadInflector ["run\ti:3.0"]).map
        (fun inf => Search inf "running") = some [] ∧
    some [("run", (7 : ℚ), ["a"])] ≠ some ([] : List Cand) := by
  refine ⟨by decide, by decide, by decide⟩

/-- C10 counterexample: after loading two lines with the same base form
(`run vc:running` then the degenerate `run x`), the inverted index still
maps `running` to `run` and `run` is still a key of `word_dict`, but its
final record is empty — so the index-driven loop's skip branch fires
(the record is falsy) and `Search "running"` returns nothing. -/
theorem C10_counterexample :
    loadInflector ["run\tvc:running", "run\tx"] =
      some ⟨[("run", emptyAttrs)], [("running", ["run"])]⟩ ∧
    indexGet (⟨[("run", emptyAttrs)], [("running", ["run"])]⟩ : Inflector).index
        "running" = ["run"] ∧
    Search ⟨[("run", emptyAttrs)], [("running", ["run"])]⟩ "running" = [] := by
  decide


theorem strLt_nil_false : ∀ b : List Char, strLt b [] = false
  | [] => rfl
  | _ :: _ => rfl

theorem strLt_irrefl : ∀ l : List Char, strLt l l = false
  | [] => rfl
  | c :: cs => by
    simp only [strLt, lt_irrefl, if_false]
    exact strLt_irrefl cs

theorem strLt_asymm : ∀ {a b : List Char}, strLt a b = true → strLt b a = false
  | [], [], h => by simp [strLt] at h
  | [], _ :: _, _ => rfl
  | _ :: _, [], h => by simp [strLt] at h
  | x :: xs, y :: ys, h => by
    simp only [strLt] at h ⊢
    rcases lt_trichotomy x y with hxy | hxy | hxy
    · simp [hxy, not_lt_of_gt hxy]
    · subst hxy
      simp only [lt_irrefl, if_false] at h ⊢
      exact strLt_asymm h
    · simp [hxy, not_lt_of_gt hxy] at h

theorem strLt_trans : ∀ {a b c : List Char},
    strLt a b = true → strLt b c = true → strLt a c = true
  | _, b, [], _, hbc => by simp [strLt_nil_false] at hbc
  | [], _, _ :: _, _, _ => rfl
  | _ :: _, [], _, hab, _ => by simp [strLt] at hab
  | x :: xs, y :: ys, z :: zs, hab, hbc => by
    simp only [strLt] at hab hbc ⊢
    rcases lt_trichotomy x y with hxy | hxy | hxy
    · rcases lt_trichotomy y z with hyz | hyz | hyz
      · simp [lt_trans hxy hyz]
      · subst hyz; simp [hxy]
      · simp [hyz, not_lt_of_gt hyz] at hbc
    · subst hxy
      rcases lt_trichotomy x z with hyz | hyz | hyz
      · simp [hyz]
      · subst hyz
        simp only [lt_irrefl, if_false] at hab hbc ⊢
        exact strLt_trans hab hbc
      · simp [hyz, not_lt_of_gt hyz] at hbc
    · simp [hxy, not_lt_of_gt hxy] at hab

theorem strLt_connex : ∀ {a b : List Char},
    strLt a b = false → strLt b a = false → a = b
  | [], [], _, _ => rfl
  | [], _ :: _, hab, _ => by simp [strLt] at hab
  | _ :: _, [], _, hba => by simp [strLt] at hba
  | x :: xs, y :: ys, hab, hba => by
    simp only [strLt] at hab hba
    rcases lt_trichotomy x y with hxy | hxy | hxy
    · simp [hxy] at hab
    · subst hxy
      simp only [lt_irrefl, if_false] at hab hba
      exact congrArg (x :: ·) (strLt_connex hab hba)
    · simp [hxy] at hba

theorem candLT_iff {a b : Cand} :
    candLT a b = true ↔
      a.2.1 < b.2.1 ∨ (a.2.1 = b.2.1 ∧ strLt a.1.toList b.1.toList = true) := by
  unfold candLT
  split_ifs with h1 h2
  · simp [h1]
  · constructor
    · intro h; cases h
    · rintro (h | ⟨he, _⟩)
      · exact absurd h h1
      · exact absurd h2 (by rw [he]; exact lt_irrefl _)
  · have he : a.2.1 = b.2.1 := le_antisymm (not_lt.1 h2) (not_lt.1 h1)
    simp [h1, he]


theorem strLt_neg_trans {a b c : List Char} (hba : strLt b a = false)
    (hcb : strLt c b = false) : strLt c a = false := by
  by_contra hcon
  simp only [Bool.not_eq_false] at hcon
  cases hab : strLt a b with
  | true => exact absurd (strLt_trans hcon hab) (by simp [hcb])
  | false =>
    rw [strLt_connex hab hba] at hcon
    exact absurd hcon (by simp [hcb])

theorem candLT_asymm {a b : Cand} (h : candLT a b = true) : candLT b a = false := by
  rw [candLT_iff] at h
  rw [Bool.eq_false_iff]
  intro hba
  rw [candLT_iff] at hba
  rcases h with h | ⟨he, hs⟩ <;> rcases hba with hba | ⟨hbe, hbs⟩
  · exact absurd hba (not_lt_of_gt h)
  · exact absurd h (by rw [hbe]; exact lt_irrefl _)
  · exact absurd hba (by rw [he]; exact lt_irrefl _)
  · exact Bool.noConfusion ((strLt_asymm hs).symm.trans hbs)

theorem candLT_trans {a b c : Cand} (hab : candLT a b = true)
    (hbc : candLT b c = true) : candLT a c = true := by
  rw [candLT_iff] at hab hbc ⊢
  rcases hab with h | ⟨he, hs⟩ <;> rcases hbc with h2 | ⟨he2, hs2⟩
  · exact Or.inl (lt_trans h h2)
  · exact Or.inl (he2 ▸ h)
  · exact Or.inl (he ▸ h2)
  · exact Or.inr ⟨he.trans he2, strLt_trans hs hs2⟩

theorem candLT_false_iff {a b : Cand} :
    candLT a b = false ↔
      (b.2.1 < a.2.1 ∨ (a.2.1 = b.2.1 ∧ strLt a.1.toList b.1.toList = false)) := by
  rw [← Bool.not_eq_true, candLT_iff]
  constructor
  · intro h
    push_neg at h
    rcases lt_trichotomy a.2.1 b.2.1 with hq | hq | hq
    · exact absurd hq (not_lt.2 h.1)
    · exact Or.inr ⟨hq, by simpa using h.2 hq⟩
    · exact Or.inl hq
  · rintro (h | ⟨he, hs⟩) <;> push_neg
    · exact ⟨le_of_lt h, fun he2 => absurd h (by rw [he2]; exact lt_irrefl _)⟩
    · exact ⟨le_of_eq he.symm, fun _ => by simpa using hs⟩

theorem candLE_total (a b : Cand) : candLE a b = true ∨ candLE b a = true := by
  unfold candLE
  by_cases h : candLT b a = true
  · right; simp [candLT_asymm h]
  · left; simp only [Bool.not_eq_true] at h; simp [h]

theorem candLE_trans {a b c : Cand} (hab : candLE a b = true)
    (hbc : candLE b c = true) : candLE a c = true := by
  unfold candLE at hab hbc ⊢
  simp only [Bool.not_eq_true'] at hab hbc ⊢
  rw [candLT_false_iff] at hab hbc ⊢
  rcases hab with h | ⟨he, hs⟩ <;> rcases hbc with h2 | ⟨he2, hs2⟩
  · exact Or.inl (lt_trans h h2)
  · exact Or.inl (he2 ▸ h)
  · exact Or.inl (he ▸ h2)
  · exact Or.inr ⟨he2.trans he, strLt_neg_trans hs hs2⟩

theorem insertCand_perm (c : Cand) :
    ∀ l : List Cand, List.Perm (insertCand c l) (c :: l)
  | [] => List.Perm.refl _
  | d :: ds => by
    unfold insertCand
    split
    · exact ((insertCand_perm c ds).cons d).trans (List.Perm.swap c d ds)
    · exact List.Perm.refl _

theorem sortCands_perm_aux :
    ∀ (l acc : List Cand),
      List.Perm (l.foldl (fun a c => insertCand c a) acc) (acc ++ l)
  | [], acc => by simp
  | c :: l, acc => by
    have h1 := sortCands_perm_aux l (insertCand c acc)
    have h2 : List.Perm (insertCand c acc ++ l) ((acc ++ [c]) ++ l) :=
      ((insertCand_perm c acc).trans
        (List.perm_append_singleton c acc).symm).append_right l
    simpa using h1.trans h2

theorem sortCands_perm (l : List Cand) : List.Perm (sortCands l) l := by
  simpa using sortCands_perm_aux l []

theorem mem_sortCands {c : Cand} {l : List Cand} : c ∈ sortCands l ↔ c ∈ l :=
  (sortCands_perm l).mem_iff

theorem insertCand_pairwise {c : Cand} :
    ∀ {l : List Cand}, l.Pairwise (fun a b => candLE a b = true) →
      (insertCand c l).Pairwise (fun a b => candLE a b = true)
  | [], _ => by simp [insertCand]
  | d :: ds, h => by
    unfold insertCand
    rcases List.pairwise_cons.1 h with ⟨hd, hds⟩
    split
    · rename_i hdc
      refine List.pairwise_cons.2 ⟨?_, insertCand_pairwise hds⟩
      intro e he
      rcases List.mem_cons.1 ((insertCand_perm c ds).mem_iff.1 he) with rfl | he2
      · exact hdc
      · exact hd _ he2
    · rename_i hdc
      refine List.pairwise_cons.2 ⟨?_, h⟩
      intro e he
      have hcd : candLE c d = true := by
        rcases candLE_total c d with h1 | h1
        · exact h1
        · exact absurd h1 (by simpa using hdc)
      rcases List.mem_cons.1 he with rfl | he2
      · exact hcd
      · exact candLE_trans hcd (hd _ he2)

theorem sortCands_pairwise (l : List Cand) :
    (sortCands l).Pairwise (fun a b => candLE a b = true) := by
  unfold sortCands
  suffices h : ∀ (l acc : List Cand),
      acc.Pairwise (fun a b => candLE a b = true) →
      (l.foldl (fun a c => insertCand c a) acc).Pairwise
        (fun a b => candLE a b = true) from h l [] (by simp)
  intro l
  induction l with
  | nil => intro acc hacc; simpa using hacc
  | cons c cs ih =>
    intro acc hacc
    simpa using ih (insertCand c acc) (insertCand_pairwise hacc)

/-- The head of the stable sort is a candidate that is strictly below
every other element of the list in the `(cost, string)` order. -/
theorem sortCands_head {l : List Cand} {x : Cand} (hx : x ∈ l)
    (hmin : ∀ y ∈ l, y ≠ x → candLT x y = true) :
    (sortCands l).head? = some x := by
  have hperm := sortCands_perm l
  have hxs : x ∈ sortCands l := hperm.mem_iff.2 hx
  have hpw := sortCands_pairwise l
  cases hs : sortCands l with
  | nil => rw [hs] at hxs; cases hxs
  | cons h t =>
    rw [hs] at hxs hpw
    rcases List.pairwise_cons.1 hpw with ⟨hhd, _⟩
    by_cases hhx : h = x
    · rw [hhx]; rfl
    · have hhl : h ∈ l := hperm.mem_iff.1 (by rw [hs]; exact List.mem_cons_self h t)
      have hlt : candLT x h = true := hmin h hhl hhx
      have hxt : x ∈ t := by
        rcases List.mem_cons.1 hxs with rfl | hxt
        · exact absurd rfl hhx
        · exact hxt
      have hle : candLE h x = true := hhd x hxt
      unfold candLE at hle
      rw [hlt] at hle
      exact Bool.noConfusion hle

theorem Search_unfold (inf : Inflector) (phrase : String) :
    Search inf phrase =
      sortCands
        (if (sortCands (searchMatches23 inf phrase).1).isEmpty ∧
            1 < (tokenize phrase).length then
          (step4 inf (tokenize phrase) (List.range (tokenize phrase).length)
            (searchMatches23 inf phrase).2
            (sortCands (searchMatches23 inf phrase).1)).1
        else sortCands (searchMatches23 inf phrase).1) := rfl

theorem searchMatches23_unfold (inf : Inflector) (phrase : String) :
    searchMatches23 inf phrase =
      step3 inf (canon phrase) (indexGet inf.index (canon phrase)) [canon phrase]
        (match dictGet inf.word_dict (canon phrase) with
         | some attrs =>
           if attrsTruthy attrs then [(canon phrase, searchIdf attrs, ["o"])] else []
         | none => []) := rfl

theorem candFor_fst {inf : Inflector} {orig b : String} {c : Cand}
    (h : candFor inf orig b = some c) : c.1 = b := by
  unfold candFor at h
  cases hd : dictGet inf.word_dict b with
  | none => rw [hd] at h; cases h
  | some attrs =>
    rw [hd] at h
    by_cases ht : attrsTruthy attrs = true
    · simp only [ht, if_true] at h
      cases h
      rfl
    · simp only [Bool.not_eq_true] at ht
      simp [ht] at h

theorem contains_false_iff {l : List String} {s : String} :
    l.contains s = false ↔ s ∉ l := by
  rw [show l.contains s = List.elem s l from rfl, List.elem_eq_mem]
  simp

theorem step3_acc_sub {inf : Inflector} {orig : String} :
    ∀ {bs uniq acc : List _} {c : Cand},
      c ∈ acc → c ∈ (step3 inf orig bs uniq acc).1
  | [], _, _, _, hc => hc
  | b :: bs, uniq, acc, c, hc => by
    unfold step3
    split
    · exact step3_acc_sub hc
    · cases hcf : candFor inf orig b with
      | none => exact step3_acc_sub hc
      | some cand => exact step3_acc_sub (List.mem_append_left _ hc)

theorem step3_mem {inf : Inflector} {orig : String} :
    ∀ {bs uniq acc : List _} {c : Cand},
      c ∈ (step3 inf orig bs uniq acc).1 →
      c ∈ acc ∨ (uniq.contains c.1 = false ∧ ∃ b ∈ bs, candFor inf orig b = some c)
  | [], _, _, _, hc => Or.inl hc
  | b :: bs, uniq, acc, c, hc => by
    unfold step3 at hc
    split at hc
    · rcases step3_mem hc with h | ⟨h1, b2, hb2, hcf⟩
      · exact Or.inl h
      · exact Or.inr ⟨h1, b2, List.mem_cons_of_mem b hb2, hcf⟩
    · rename_i hcont
      cases hcf : candFor inf orig b with
      | none =>
        rw [hcf] at hc
        rcases step3_mem hc with h | ⟨h1, b2, hb2, hcf2⟩
        · exact Or.inl h
        · exact Or.inr ⟨h1, b2, List.mem_cons_of_mem b hb2, hcf2⟩
      | some cand =>
        rw [hcf] at hc
        rcases step3_mem hc with h | ⟨h1, b2, hb2, hcf2⟩
        · rcases List.mem_append.1 h with h2 | h2
          · exact Or.inl h2
          · have hcand : c = cand := by simpa using h2
            subst hcand
            refine Or.inr ⟨?_, b, List.mem_cons_self b bs, hcf⟩
            rw [candFor_fst hcf]
            simpa using hcont
        · have hu : uniq.contains c.1 = false := by
            rw [contains_false_iff] at h1 ⊢
            intro hmem
            exact h1 (List.mem_append_left _ hmem)
          exact Or.inr ⟨hu, b2, List.mem_cons_of_mem b hb2, hcf2⟩

theorem step4Tok_mem {inf : Inflector} {tokens : List String} {i : ℕ}
    {token : String} :
    ∀ {bs uniq acc : List _} {c : Cand},
      c ∈ (step4Tok inf tokens i token bs uniq acc).1 →
      c ∈ acc ∨ ∃ bp b, candFor4 inf token bp b = some c
  | [], _, _, _, hc => Or.inl hc
  | b :: bs, uniq, acc, c, hc => by
    unfold step4Tok at hc
    split at hc
    · rcases step4Tok_mem hc with h | h
      · exact Or.inl h
      · exact Or.inr h
    · cases hcf : candFor4 inf token (joinSp (tokens.set i b)) b with
      | none =>
        rw [hcf] at hc
        rcases step4Tok_mem hc with h | h
        · exact Or.inl h
        · exact Or.inr h
      | some cand =>
        rw [hcf] at hc
        rcases step4Tok_mem hc with h | h
        · rcases List.mem_append.1 h with h2 | h2
          · exact Or.inl h2
          · have hcand : c = cand := by simpa using h2
            subst hcand
            exact Or.inr ⟨joinSp (tokens.set i b), b, hcf⟩
        · exact Or.inr h

theorem step4_mem {inf : Inflector} {tokens : List String} :
    ∀ {is uniq acc : List _} {c : Cand},
      c ∈ (step4 inf tokens is uniq acc).1 →
      c ∈ acc ∨ ∃ tok bp b, candFor4 inf tok bp b = some c
  | [], _, _, _, hc => Or.inl hc
  | i :: is, uniq, acc, c, hc => by
    unfold step4 at hc
    rcases step4_mem hc with h | ⟨tok, bp, b, hcf⟩
    · rcases step4Tok_mem h with h2 | ⟨bp, b, hcf⟩
      · exact Or.inl h2
      · exact Or.inr ⟨tokens.getD i "", bp, b, hcf⟩
    · exact Or.inr ⟨tok, bp, b, hcf⟩

theorem dictGet_mem {α : Type} {d : List (String × α)} {k : String} {v : α}
    (h : dictGet d k = some v) : (k, v) ∈ d := by
  unfold dictGet at h
  cases hf : d.find? (fun p => p.1 == k) with
  | none => rw [hf] at h; cases h
  | some p =>
    rw [hf] at h
    have hp := List.find?_some hf
    have hm := List.mem_of_find?_eq_some hf
    simp only [beq_iff_eq] at hp
    cases h
    have : p = (k, p.2) := by rw [← hp]
    rw [← this]
    exact hm

theorem costOf_pos {l : String} {q : ℚ} (h : costOf l = some q) : 0 < q := by
  have hm := dictGet_mem h
  have hall : ∀ p ∈ inflection_costs, 0 < p.2 := by decide
  exact hall _ hm

theorem scanLabel_pos {target : String} :
    ∀ {c : ℚ} {vs : List String} {mc : ℚ},
      0 < c → scanLabel c target vs = some mc → 0 < mc
  | _, [], _, _, h => by cases h
  | c, v :: vs, mc, hc, h => by
    unfold scanLabel at h
    split at h
    · cases h; exact hc
    · exact scanLabel_pos (by rw [qadd_eq]; linarith) h

theorem scanFormsAux_pos {target : String} :
    ∀ {forms : List (String × List String)} {acc : ℚ × List String},
      0 < acc.1 → 0 < (scanFormsAux target forms acc).1
  | [], _, h => h
  | kv :: rest, acc, h => by
    unfold scanFormsAux
    cases hco : costOf kv.1 with
    | none => exact scanFormsAux_pos h
    | some c =>
      by_cases hc0 : c = 0
      · simp only [hc0, if_true]
        exact scanFormsAux_pos h
      · simp only [hc0, if_false]
        cases hsl : scanLabel c target kv.2 with
        | none => exact scanFormsAux_pos h
        | some mc =>
          apply scanFormsAux_pos
          show 0 < qmin acc.1 mc
          rw [qmin_eq]
          exact lt_min h (scanLabel_pos (costOf_pos hco) hsl)

theorem scanForms_pos (target : String) (forms : List (String × List String)) :
    0 < (scanForms target forms).1 :=
  scanFormsAux_pos (by norm_num)

/-- C2 (amended): for every store and phrase `P` that is stored in
canonical form with a truthy occurrence cost `c` (present and nonzero),
the first element of `Search P` is `(P, c, ["o"])` unless some other
candidate has a strictly lower cost or an equal cost with a
lexicographically smaller base string.  (The original claim fails on
equal-cost candidates with smaller strings, on zero occurrence costs,
and on non-canonical stored phrases; see the counterexample.) -/
theorem C2_amended (inf : Inflector) (P : String) (attrs : WordAttrs) (c : ℚ)
    (hcanon : canon P = P)
    (hP : dictGet inf.word_dict P = some attrs)
    (hi : attrs.i = some c) (hc0 : c ≠ 0)
    (hmin : ∀ y ∈ Search inf P, y.1 ≠ P →
      c < y.2.1 ∨ (c = y.2.1 ∧ strLt P.toList y.1.toList = true)) :
    (Search inf P).head? = some (P, c, ["o"]) := by
  have htruthy : attrsTruthy attrs = true := by
    unfold attrsTruthy
    rw [hi]
    simp
  have hidf : searchIdf attrs = c := by
    unfold searchIdf
    rw [hi]
    simp [hc0]
  have hm1 : searchMatches23 inf P =
      step3 inf P (indexGet inf.index P) [P] [(P, c, ["o"])] := by
    rw [searchMatches23_unfold, hcanon, hP]
    simp [htruthy, hidf]
  have hxm2 : ((P, c, ["o"]) : Cand) ∈ (searchMatches23 inf P).1 := by
    rw [hm1]
    exact step3_acc_sub (List.mem_singleton.2 rfl)
  have hne : (sortCands (searchMatches23 inf P).1).isEmpty = false := by
    rcases hsort : sortCands (searchMatches23 inf P).1 with _ | ⟨hh, tt⟩
    · exfalso
      have := mem_sortCands.2 hxm2
      rw [hsort] at this
      cases this
    · rfl
  have hsearch : Search inf P = sortCands (sortCands (searchMatches23 inf P).1) := by
    rw [Search_unfold]
    simp [hne]
  have hminS : ∀ y ∈ sortCands (searchMatches23 inf P).1,
      y ≠ ((P, c, ["o"]) : Cand) → candLT (P, c, ["o"]) y = true := by
    intro y hy hyx
    have hym2 : y ∈ (searchMatches23 inf P).1 := mem_sortCands.1 hy
    have hy1 : y.1 ≠ P := by
      rw [hm1] at hym2
      rcases step3_mem hym2 with hin | ⟨hcont, b, hb, hcf⟩
      · exact absurd (List.mem_singleton.1 hin) hyx
      · rw [contains_false_iff] at hcont
        intro he
        exact hcont (he ▸ List.mem_singleton.2 rfl)
    have hyS : y ∈ Search inf P := by
      rw [hsearch]
      exact mem_sortCands.2 hy
    rcases hmin y hyS hy1 with hlt | ⟨he, hs⟩
    · exact candLT_iff.2 (Or.inl hlt)
    · exact candLT_iff.2 (Or.inr ⟨he, hs⟩)
  rw [hsearch]
  exact sortCands_head (mem_sortCands.2 hxm2) hminS

def infC2w : Inflector :=
  ⟨[("run", ⟨[], some 5⟩), ("ant", ⟨[("np", ["run"])], some 6⟩)],
   [("run", ["ant"])]⟩

theorem C2_amended_witness :
    (Search infC2w "run").head? = some ("run", 5, ["o"]) :=
  C2_amended infC2w "run" ⟨[], some 5⟩ 5 (by decide) (by decide) rfl
    (by decide) (by decide)

/-- C3 (amended): the idf component of every `Search` candidate's cost
equals the candidate record's occurrence cost when that cost is present
and nonzero, and equals `20.0` both when the record has no occurrence
cost and when the stored cost is `0.0` (Python's `or` treats `0.0` as
absent); the rest of the cost is nonnegative. -/
theorem C3_amended (inf : Inflector) (phrase : String) (cand : Cand)
    (h : cand ∈ Search inf phrase) :
    ∃ b attrs extra, dictGet inf.word_dict b = some attrs ∧ 0 ≤ extra ∧
      cand.2.1 =
        (match attrs.i with
         | some q => if q = 0 then (20 : ℚ) else q
         | none => (20 : ℚ)) + extra := by
  have hstep23 : ∀ cnd : Cand, cnd ∈ (searchMatches23 inf phrase).1 →
      ∃ b attrs extra, dictGet inf.word_dict b = some attrs ∧ 0 ≤ extra ∧
        cnd.2.1 =
          (match attrs.i with
           | some q => if q = 0 then (20 : ℚ) else q
           | none => (20 : ℚ)) + extra := by
    intro cnd hc
    rw [searchMatches23_unfold] at hc
    rcases step3_mem hc with hin | ⟨_, b, _, hcf⟩
    · cases hd : dictGet inf.word_dict (canon phrase) with
      | none => rw [hd] at hin; cases hin
      | some attrs =>
        rw [hd] at hin
        by_cases ht : attrsTruthy attrs = true
        · simp only [ht, if_true] at hin
          have he := List.mem_singleton.1 hin
          refine ⟨canon phrase, attrs, 0, hd, le_refl 0, ?_⟩
          rw [he, add_zero]
          rfl
        · rw [Bool.not_eq_true] at ht
          simp [ht] at hin
    · unfold candFor at hcf
      cases hd : dictGet inf.word_dict b with
      | none => rw [hd] at hcf; cases hcf
      | some attrs =>
        rw [hd] at hcf
        by_cases ht : attrsTruthy attrs = true
        · simp only [ht, if_true] at hcf
          cases hcf
          refine ⟨b, attrs, (scanForms (canon phrase) attrs.forms).1, hd,
            le_of_lt (scanForms_pos _ _), ?_⟩
          rw [qadd_eq]
          rfl
        · rw [Bool.not_eq_true] at ht
          simp [ht] at hcf
  rw [Search_unfold] at h
  have h2 := mem_sortCands.1 h
  split at h2
  · rcases step4_mem h2 with hacc | ⟨tok, bp, b, hcf⟩
    · exact hstep23 cand (mem_sortCands.1 hacc)
    · unfold candFor4 at hcf
      cases hd : dictGet inf.word_dict b with
      | none => rw [hd] at hcf; cases hcf
      | some attrs =>
        rw [hd] at hcf
        by_cases ht : attrsTruthy attrs = true
        · simp only [ht, if_true] at hcf
          cases hcf
          refine ⟨b, attrs, 20 + (scanForms tok attrs.forms).1, hd, ?_, ?_⟩
          · have := scanForms_pos tok attrs.forms
            linarith
          · rw [qadd_eq, qadd_eq, add_assoc]
            rfl
        · rw [Bool.not_eq_true] at ht
          simp [ht] at hcf
  · exact hstep23 cand (mem_sortCands.1 h2)

def infC3w : Inflector :=
  ⟨[("run", ⟨[("vc", ["running"])], some 3⟩)], [("running", ["run"])]⟩

theorem C3_amended_witness :
    ∃ b attrs extra, dictGet infC3w.word_dict b = some attrs ∧ 0 ≤ extra ∧
      ((("run", 4, ["vc"]) : Cand)).2.1 =
        (match attrs.i with
         | some q => if q = 0 then (20 : ℚ) else q
         | none => (20 : ℚ)) + extra :=
  C3_amended infC3w "running" ("run", 4, ["vc"]) (by decide)

theorem dictGet_dictInsert_self {α : Type} (d : List (String × α)) (k : String)
    (v : α) : dictGet (dictInsert d k v) k = some v := by
  induction d with
  | nil =>
    show dictGet [(k, v)] k = some v
    unfold dictGet
    rw [List.find?_cons_of_pos _ (by simp)]
    rfl
  | cons p ps ih =>
    show dictGet (if p.1 == k then (k, v) :: ps else p :: dictInsert ps k v) k
        = some v
    by_cases hp : p.1 = k
    · rw [if_pos (beq_iff_eq.2 hp)]
      unfold dictGet
      rw [List.find?_cons_of_pos _ (by simp)]
      rfl
    · rw [if_neg (by simpa using hp)]
      unfold dictGet at ih ⊢
      rw [List.find?_cons_of_neg _ (by simpa using hp)]
      exact ih

theorem dictGet_dictInsert_ne {α : Type} {k' k : String} (h : k' ≠ k)
    (d : List (String × α)) (v : α) :
    dictGet (dictInsert d k v) k' = dictGet d k' := by
  induction d with
  | nil =>
    show dictGet [(k, v)] k' = dictGet [] k'
    unfold dictGet
    rw [List.find?_cons_of_neg _ (by simp; exact fun hh => h hh.symm)]
  | cons p ps ih =>
    show dictGet (if p.1 == k then (k, v) :: ps else p :: dictInsert ps k v) k'
        = dictGet (p :: ps) k'
    by_cases hp : p.1 = k
    · rw [if_pos (beq_iff_eq.2 hp)]
      unfold dictGet
      rw [List.find?_cons_of_neg _ (by simp; exact fun hh => h hh.symm),
        List.find?_cons_of_neg _ (by
          simp only [beq_iff_eq]
          rw [hp]
          exact fun hh => h hh.symm)]
    · rw [if_neg (by simpa using hp)]
      unfold dictGet at ih ⊢
      by_cases hpq : p.1 = k'
      · rw [List.find?_cons_of_pos _ (by simp [hpq]),
          List.find?_cons_of_pos _ (by simp [hpq])]
      · rw [List.find?_cons_of_neg _ (by simpa using hpq),
          List.find?_cons_of_neg _ (by simpa using hpq)]
        exact ih

theorem indexGet_indexAppend_mem {ix : List (String × List String)}
    {k o v b : String}
    (h : b ∈ indexGet (indexAppend ix k o) v) : b ∈ indexGet ix v ∨ b = o := by
  unfold indexAppend at h
  by_cases hv : v = k
  · subst hv
    unfold indexGet at h
    rw [dictGet_dictInsert_self] at h
    simp only [Option.getD_some] at h
    rcases List.mem_append.1 h with h2 | h2
    · exact Or.inl h2
    · exact Or.inr (by simpa using h2)
  · unfold indexGet at h
    rw [dictGet_dictInsert_ne hv] at h
    exact Or.inl h

theorem indexGet_foldAppend_mem {o v b : String} :
    ∀ {l : List String} {ix : List (String × List String)},
      b ∈ indexGet (l.foldl (fun ix infl => indexAppend ix infl o) ix) v →
      b ∈ indexGet ix v ∨ b = o := by
  intro l
  induction l with
  | nil => intro ix h; exact Or.inl h
  | cons x xs ih =>
    intro ix h
    simp only [List.foldl_cons] at h
    rcases ih h with h2 | h2
    · exact indexGet_indexAppend_mem h2
    · exact Or.inr h2

theorem procField_index_mem {orig : String}
    {st st2 : WordAttrs × List (String × List String)} {f v b : String}
    (hpf : procField orig st f = some st2)
    (h : b ∈ indexGet st2.2 v) : b ∈ indexGet st.2 v ∨ b = orig := by
  unfold procField at hpf
  rcases hsp : splitStr ':' f with _ | ⟨l1, _ | ⟨l2, rest⟩⟩
  · rw [hsp] at hpf
    cases hpf
    exact Or.inl h
  · rw [hsp] at hpf
    cases hpf
    exact Or.inl h
  · rw [hsp] at hpf
    cases rest with
    | nil =>
      by_cases hl : isLabel l1 = true
      · simp only [hl, if_true] at hpf
        cases hpf
        exact indexGet_foldAppend_mem h
      · rw [Bool.not_eq_true] at hl
        simp only [hl, Bool.false_eq_true, if_false] at hpf
        by_cases hi : l1 = "i"
        · simp only [hi, if_true] at hpf
          cases hpq : parseFloat l2 with
          | none => rw [hpq] at hpf; cases hpf
          | some q =>
            rw [hpq] at hpf
            cases hpf
            exact Or.inl h
        · simp only [hi, if_false] at hpf
          cases hpf
          exact Or.inl h
    | cons l3 rest2 =>
      cases hpf
      exact Or.inl h

theorem procFields_index_mem {orig : String} :
    ∀ {fs : List String} {st st2 : WordAttrs × List (String × List String)}
      {v b : String},
      procFields orig fs st = some st2 →
      b ∈ indexGet st2.2 v → b ∈ indexGet st.2 v ∨ b = orig
  | [], st, st2, v, b, hpf, h => by
    cases hpf
    exact Or.inl h
  | f :: fs, st, st2, v, b, hpf, h => by
    unfold procFields at hpf
    cases hp : procField orig st f with
    | none => rw [hp] at hpf; cases hpf
    | some stm =>
      rw [hp] at hpf
      rcases procFields_index_mem hpf h with h2 | h2
      · exact procField_index_mem hp h2
      · exact Or.inr h2

/-- Invariant: every base form in the inverted index is a key of
`word_dict`. -/
def InvIdx (inf : Inflector) : Prop :=
  ∀ v b, b ∈ indexGet inf.index v → (dictGet inf.word_dict b).isSome = true

theorem procLine_invIdx {inf inf2 : Inflector} {l : String}
    (hp : procLine inf l = some inf2) (hinv : InvIdx inf) : InvIdx inf2 := by
  unfold procLine at hp
  split at hp
  · cases hp
    exact hinv
  · rcases hf : splitStr '\t' (String.mk (trimChars l.toList)) with _ | ⟨f0, rest⟩
    · rw [hf] at hp
      cases hp
      exact hinv
    · rw [hf] at hp
      dsimp only at hp
      cases hpf : procFields f0 (f0 :: rest) (emptyAttrs, inf.index) with
      | none => rw [hpf] at hp; cases hp
      | some st =>
        rw [hpf] at hp
        cases hp
        intro v b hb
        rcases procFields_index_mem hpf hb with h2 | h2
        · by_cases hbf : b = f0
          · subst hbf
            rw [dictGet_dictInsert_self]
            rfl
          · rw [dictGet_dictInsert_ne hbf]
            exact hinv v b h2
        · subst h2
          rw [dictGet_dictInsert_self]
          rfl

theorem loadFrom_invIdx :
    ∀ {lines : List String} {inf inf2 : Inflector},
      loadFrom inf lines = some inf2 → InvIdx inf → InvIdx inf2
  | [], inf, inf2, hp, hinv => by
    cases hp
    exact hinv
  | l :: ls, inf, inf2, hp, hinv => by
    unfold loadFrom at hp
    cases hpl : procLine inf l with
    | none => rw [hpl] at hp; cases hp
    | some infm =>
      rw [hpl] at hp
      exact loadFrom_invIdx hp (procLine_invIdx hpl hinv)

/-- C10 (amended): after a successful load, every base-form string in any
inverted-index entry is a key of the base-form dictionary, so both
index-driven lookup paths find a (possibly empty) record for each indexed
base; the skip branch remains reachable, but only through records made
empty by a later duplicate line (see the counterexample). -/
theorem C10_amended (lines : List String) (inf : Inflector)
    (hl : loadInflector lines = some inf) :
    ∀ v b, b ∈ indexGet inf.index v → ∃ attrs, dictGet inf.word_dict b = some attrs := by
  intro v b hb
  have hinv : InvIdx inf :=
    loadFrom_invIdx hl (by
      intro v b hb
      simp [indexGet, dictGet, List.find?] at hb)
  have := hinv v b hb
  exact Option.isSome_iff_exists.1 this

theorem C10_amended_witness :
    ∃ attrs,
      dictGet (⟨[("run", ⟨[("vc", ["running"])], none⟩)],
        [("running", ["run"])]⟩ : Inflector).word_dict "run" = some attrs :=
  C10_amended ["run\tvc:running"]
    ⟨[("run", ⟨[("vc", ["running"])], none⟩)], [("running", ["run"])]⟩
    (by decide) "running" "run" (by decide)

theorem indexGet_indexAppend_self (ix : List (String × List String))
    (k o : String) : o ∈ indexGet (indexAppend ix k o) k := by
  unfold indexAppend indexGet
  rw [dictGet_dictInsert_self]
  simp

theorem indexGet_indexAppend_mono {ix : List (String × List String)}
    {k o v b : String} (h : b ∈ indexGet ix v) :
    b ∈ indexGet (indexAppend ix k o) v := by
  by_cases hv : v = k
  · subst hv
    unfold indexAppend indexGet
    rw [dictGet_dictInsert_self]
    simp only [Option.getD_some]
    exact List.mem_append_left _ h
  · unfold indexAppend indexGet
    rw [dictGet_dictInsert_ne hv]
    exact h

theorem foldAppend_mono {o v b : String} :
    ∀ {l : List String} {ix : List (String × List String)},
      b ∈ indexGet ix v →
      b ∈ indexGet (l.foldl (fun ix infl => indexAppend ix infl o) ix) v
  | [], _, h => h
  | x :: xs, ix, h => by
    simp only [List.foldl_cons]
    exact foldAppend_mono (indexGet_indexAppend_mono h)

theorem foldAppend_self {o v : String} :
    ∀ {l : List String} {ix : List (String × List String)},
      v ∈ l → o ∈ indexGet (l.foldl (fun ix infl => indexAppend ix infl o) ix) v
  | [], _, h => by cases h
  | x :: xs, ix, h => by
    simp only [List.foldl_cons]
    rcases List.mem_cons.1 h with rfl | h2
    · exact foldAppend_mono (indexGet_indexAppend_self ix v o)
    · exact foldAppend_self h2

theorem procField_index_mono {orig : String}
    {st st2 : WordAttrs × List (String × List String)} {f v b : String}
    (hpf : procField orig st f = some st2)
    (h : b ∈ indexGet st.2 v) : b ∈ indexGet st2.2 v := by
  unfold procField at hpf
  rcases hsp : splitStr ':' f with _ | ⟨l1, _ | ⟨l2, rest⟩⟩
  · rw [hsp] at hpf
    cases hpf
    exact h
  · rw [hsp] at hpf
    cases hpf
    exact h
  · rw [hsp] at hpf
    cases rest with
    | nil =>
      by_cases hl : isLabel l1 = true
      · simp only [hl, if_true] at hpf
        cases hpf
        exact foldAppend_mono h
      · rw [Bool.not_eq_true] at hl
        simp only [hl, Bool.false_eq_true, if_false] at hpf
        by_cases hi : l1 = "i"
        · simp only [hi, if_true] at hpf
          cases hpq : parseFloat l2 with
          | none => rw [hpq] at hpf; cases hpf
          | some q =>
            rw [hpq] at hpf
            cases hpf
            exact h
        · simp only [hi, if_false] at hpf
          cases hpf
          exact h
    | cons l3 rest2 =>
      cases hpf
      exact h

theorem procFields_index_mono {orig : String} :
    ∀ {fs : List String} {st st2 : WordAttrs × List (String × List String)}
      {v b : String},
      procFields orig fs st = some st2 →
      b ∈ indexGet st.2 v → b ∈ indexGet st2.2 v
  | [], st, st2, v, b, hpf, h => by
    cases hpf
    exact h
  | f :: fs, st, st2, v, b, hpf, h => by
    unfold procFields at hpf
    cases hp : procField orig st f with
    | none => rw [hp] at hpf; cases hpf
    | some stm =>
      rw [hp] at hpf
      exact procFields_index_mono hpf (procField_index_mono hp h)

/-- Completeness of the index relative to the record being built on one
line: every value stored under a label of the record is indexed back to
the line's base form. -/
def ComplState (f0 : String) (st : WordAttrs × List (String × List String)) :
    Prop :=
  ∀ L vs v, dictGet st.1.forms L = some vs → v ∈ vs → f0 ∈ indexGet st.2 v

theorem procField_compl {f0 : String}
    {st st2 : WordAttrs × List (String × List String)} {f : String}
    (hpf : procField f0 st f = some st2) (hc : ComplState f0 st) :
    ComplState f0 st2 := by
  unfold procField at hpf
  rcases hsp : splitStr ':' f with _ | ⟨l1, _ | ⟨l2, rest⟩⟩
  · rw [hsp] at hpf
    cases hpf
    exact hc
  · rw [hsp] at hpf
    cases hpf
    exact hc
  · rw [hsp] at hpf
    cases rest with
    | nil =>
      by_cases hl : isLabel l1 = true
      · simp only [hl, if_true] at hpf
        cases hpf
        intro L vs v hL hv
        by_cases hL1 : L = l1
        · subst hL1
          rw [dictGet_dictInsert_self] at hL
          cases hL
          exact foldAppend_self (List.mem_dedup.2 hv)
        · rw [dictGet_dictInsert_ne hL1] at hL
          exact foldAppend_mono (hc L vs v hL hv)
      · rw [Bool.not_eq_true] at hl
        simp only [hl, Bool.false_eq_true, if_false] at hpf
        by_cases hi : l1 = "i"
        · simp only [hi, if_true] at hpf
          cases hpq : parseFloat l2 with
          | none => rw [hpq] at hpf; cases hpf
          | some q =>
            rw [hpq] at hpf
            cases hpf
            exact hc
        · simp only [hi, if_false] at hpf
          cases hpf
          exact hc
    | cons l3 rest2 =>
      cases hpf
      exact hc

theorem procFields_compl {f0 : String} :
    ∀ {fs : List String} {st st2 : WordAttrs × List (String × List String)},
      procFields f0 fs st = some st2 → ComplState f0 st → ComplState f0 st2
  | [], st, st2, hpf, hc => by
    cases hpf
    exact hc
  | f :: fs, st, st2, hpf, hc => by
    unfold procFields at hpf
    cases hp : procField f0 st f with
    | none => rw [hp] at hpf; cases hpf
    | some stm =>
      rw [hp] at hpf
      exact procFields_compl hpf (procField_compl hp hc)

/-- Invariant: every stored label value is indexed back to its record's
base form. -/
def InvCompl (inf : Inflector) : Prop :=
  ∀ b attrs L vs v, dictGet inf.word_dict b = some attrs →
    dictGet attrs.forms L = some vs → v ∈ vs → b ∈ indexGet inf.index v

theorem procLine_invCompl {inf inf2 : Inflector} {l : String}
    (hp : procLine inf l = some inf2) (hinv : InvCompl inf) : InvCompl inf2 := by
  unfold procLine at hp
  split at hp
  · cases hp
    exact hinv
  · rcases hf : splitStr '\t' (String.mk (trimChars l.toList)) with _ | ⟨f0, rest⟩
    · rw [hf] at hp
      cases hp
      exact hinv
    · rw [hf] at hp
      dsimp only at hp
      cases hpf : procFields f0 (f0 :: rest) (emptyAttrs, inf.index) with
      | none => rw [hpf] at hp; cases hp
      | some st =>
        rw [hpf] at hp
        cases hp
        intro b attrs L vs v hb hL hv
        by_cases hbf : b = f0
        · subst hbf
          rw [dictGet_dictInsert_self] at hb
          cases hb
          exact procFields_compl hpf
            (by intro L vs v hL hv; simp [emptyAttrs, dictGet, List.find?] at hL)
            L vs v hL hv
        · rw [dictGet_dictInsert_ne hbf] at hb
          exact procFields_index_mono hpf (hinv b attrs L vs v hb hL hv)

theorem loadFrom_invCompl :
    ∀ {lines : List String} {inf inf2 : Inflector},
      loadFrom inf lines = some inf2 → InvCompl inf → InvCompl inf2
  | [], inf, inf2, hp, hinv => by
    cases hp
    exact hinv
  | l :: ls, inf, inf2, hp, hinv => by
    unfold loadFrom at hp
    cases hpl : procLine inf l with
    | none => rw [hpl] at hp; cases hp
    | some infm =>
      rw [hpl] at hp
      exact loadFrom_invCompl hp (procLine_invCompl hpl hinv)

theorem loadInflector_invCompl {lines : List String} {inf : Inflector}
    (h : loadInflector lines = some inf) : InvCompl inf :=
  loadFrom_invCompl h
    (by intro b attrs L vs v hb _ _; simp [dictGet, List.find?] at hb)

/-- The labels of an operation list. -/
def opsLabels (ops : List Op) : List String := ops.map (fun op => op.2.1)

/-- Truthiness of a record's entry for a label (`if attr:` in the
source): present and a non-empty list.  The loader never stores an empty
list (`"".split(",") == [""]`), so on loaded stores this coincides with
key presence. -/
def opSat (da : WordAttrs) (L : String) : Bool :=
  match dictGet da.forms L with
  | some vs => !vs.isEmpty
  | none => false

theorem phase1_snd (da : WordAttrs) :
    ∀ (ops : List Op) (out : ResultMap) (labels : List String),
      (phase1 da ops out labels).2 =
        labels ++ (ops.filter (fun op => opSat da op.2.1)).map (fun op => op.2.1)
  | [], out, labels => by simp [phase1]
  | (p1, l1, g1) :: rest, out, labels => by
    unfold phase1
    cases hda : dictGet da.forms l1 with
    | none =>
      rw [phase1_snd da rest out labels]
      have : opSat da l1 = false := by unfold opSat; rw [hda]
      simp [List.filter_cons, this]
    | some vs =>
      by_cases hvs : vs.isEmpty = true
      · simp only [hvs, if_true]
        rw [phase1_snd da rest out labels]
        have : opSat da l1 = false := by unfold opSat; rw [hda]; simp [hvs]
        simp [List.filter_cons, this]
      · rw [Bool.not_eq_true] at hvs
        simp only [hvs, Bool.false_eq_true, if_false]
        rw [phase1_snd da rest (dictInsert out l1 (.strs vs)) (labels ++ [l1])]
        have : opSat da l1 = true := by unfold opSat; rw [hda]; simp [hvs]
        simp [List.filter_cons, this]

theorem phase1_fst_notin {da : WordAttrs} {k : String} :
    ∀ {ops : List Op} {out : ResultMap} {labels : List String},
      (∀ op ∈ ops, op.2.1 ≠ k) →
      dictGet (phase1 da ops out labels).1 k = dictGet out k
  | [], out, labels, _ => rfl
  | (p1, l1, g1) :: rest, out, labels, h => by
    unfold phase1
    have hrest : ∀ op ∈ rest, op.2.1 ≠ k :=
      fun op hop => h op (List.mem_cons_of_mem _ hop)
    have hl1 : l1 ≠ k := h (p1, l1, g1) (List.mem_cons_self _ _)
    cases hda : dictGet da.forms l1 with
    | none => exact phase1_fst_notin hrest
    | some vs =>
      by_cases hvs : vs.isEmpty = true
      · simp only [hvs, if_true]
        exact phase1_fst_notin hrest
      · rw [Bool.not_eq_true] at hvs
        simp only [hvs, Bool.false_eq_true, if_false]
        rw [phase1_fst_notin hrest, dictGet_dictInsert_ne (Ne.symm hl1)]

theorem phase1_fst_get {da : WordAttrs} {k : String} {pos : Int}
    {g : Option (String → String)} :
    ∀ {ops : List Op} {out : ResultMap} {labels : List String},
      (opsLabels ops).Nodup → (pos, k, g) ∈ ops →
      dictGet (phase1 da ops out labels).1 k =
        (if opSat da k then some (.strs ((dictGet da.forms k).getD []))
         else dictGet out k)
  | [], _, _, _, hmem => absurd hmem (List.not_mem_nil _)
  | (p1, l1, g1) :: rest, out, labels, hnd, hmem => by
    have hnd2 := hnd
    rw [show opsLabels ((p1, l1, g1) :: rest) = l1 :: opsLabels rest from rfl,
      List.nodup_cons] at hnd2
    unfold phase1
    by_cases hk : l1 = k
    · subst hk
      have hrest : ∀ op ∈ rest, op.2.1 ≠ l1 := by
        intro op hop he
        exact hnd2.1 (he ▸ List.mem_map.2 ⟨op, hop, rfl⟩)
      cases hda : dictGet da.forms l1 with
      | none =>
        rw [phase1_fst_notin hrest]
        have : opSat da l1 = false := by unfold opSat; rw [hda]
        rw [this]
        simp
      | some vs =>
        by_cases hvs : vs.isEmpty = true
        · simp only [hvs, if_true]
          rw [phase1_fst_notin hrest]
          have : opSat da l1 = false := by unfold opSat; rw [hda]; simp [hvs]
          rw [this]
          simp
        · rw [Bool.not_eq_true] at hvs
          simp only [hvs, Bool.false_eq_true, if_false]
          rw [phase1_fst_notin hrest, dictGet_dictInsert_self]
          have : opSat da l1 = true := by unfold opSat; rw [hda]; simp [hvs]
          rw [this]
          simp
    · have hmem2 : (pos, k, g) ∈ rest := by
        rcases List.mem_cons.1 hmem with he | hm
        · exact absurd (congrArg (fun x => x.2.1) he).symm hk
        · exact hm
      cases hda : dictGet da.forms l1 with
      | none => exact phase1_fst_get hnd2.2 hmem2
      | some vs =>
        by_cases hvs : vs.isEmpty = true
        · simp only [hvs, if_true]
          exact phase1_fst_get hnd2.2 hmem2
        · rw [Bool.not_eq_true] at hvs
          simp only [hvs, Bool.false_eq_true, if_false]
          rw [phase1_fst_get hnd2.2 hmem2]
          by_cases hsat : opSat da k = true
          · simp [hsat]
          · rw [Bool.not_eq_true] at hsat
            rw [hsat]
            simp only [Bool.false_eq_true, if_false]
            exact dictGet_dictInsert_ne (Ne.symm hk) _ _

/-- The record used for the focus-token lookup of one operation. -/
def focusAttrs (inf : Inflector) (tokens : List String) (pos : Int) : WordAttrs :=
  (dictGet inf.word_dict (tokens.getD (posIndex pos tokens.length) "")).getD emptyAttrs

theorem phase2_fst_notin {inf : Inflector} {tokens : List String} {k : String} :
    ∀ {ops : List Op} {out : ResultMap} {tl : List String},
      (∀ op ∈ ops, op.2.1 ≠ k) →
      dictGet (phase2 inf tokens ops out tl).1 k = dictGet out k
  | [], out, tl, _ => rfl
  | (p1, l1, g1) :: rest, out, tl, h => by
    unfold phase2
    have hrest : ∀ op ∈ rest, op.2.1 ≠ k :=
      fun op hop => h op (List.mem_cons_of_mem _ hop)
    have hl1 : l1 ≠ k := h (p1, l1, g1) (List.mem_cons_self _ _)
    by_cases hr : posInRange p1 tokens.length = true
    · simp only [hr, if_true]
      cases hda : dictGet ((dictGet inf.word_dict
          (tokens.getD (posIndex p1 tokens.length) "")).getD emptyAttrs).forms l1 with
      | none =>
        cases g1 with
        | none => exact phase2_fst_notin hrest
        | some g =>
          rw [phase2_fst_notin hrest, dictGet_dictInsert_ne (Ne.symm hl1)]
      | some vs =>
        by_cases hvs : vs.isEmpty = true
        · simp only [hvs, if_true]
          cases g1 with
          | none => exact phase2_fst_notin hrest
          | some g =>
            rw [phase2_fst_notin hrest, dictGet_dictInsert_ne (Ne.symm hl1)]
        · rw [Bool.not_eq_true] at hvs
          simp only [hvs, Bool.false_eq_true, if_false]
          rw [phase2_fst_notin hrest, dictGet_dictInsert_ne (Ne.symm hl1)]
    · rw [Bool.not_eq_true] at hr
      simp only [hr, Bool.false_eq_true, if_false]
      exact phase2_fst_notin hrest

theorem phase2_fst_get {inf : Inflector} {tokens : List String} {k : String}
    {pos : Int} :
    ∀ {ops : List Op} {out : ResultMap} {tl : List String},
      (opsLabels ops).Nodup → (pos, k, none) ∈ ops →
      dictGet (phase2 inf tokens ops out tl).1 k =
        (if posInRange pos tokens.length then
          (if opSat (focusAttrs inf tokens pos) k then
            some (.strs (((dictGet (focusAttrs inf tokens pos).forms k).getD []).map
              (fun v => joinSp (tokens.set (posIndex pos tokens.length) v))))
           else dictGet out k)
         else dictGet out k)
  | [], _, _, _, hmem => absurd hmem (List.not_mem_nil _)
  | (p1, l1, g1) :: rest, out, tl, hnd, hmem => by
    have hnd2 := hnd
    rw [show opsLabels ((p1, l1, g1) :: rest) = l1 :: opsLabels rest from rfl,
      List.nodup_cons] at hnd2
    rcases List.mem_cons.1 hmem with he | hm
    · have hp1 : pos = p1 := congrArg (fun x => x.1) he
      have hl1 : k = l1 := congrArg (fun x => x.2.1) he
      have hg1 : (none : Option (String → String)) = g1 := congrArg (fun x => x.2.2) he
      subst hp1
      subst hl1
      subst hg1
      have hrest : ∀ op ∈ rest, op.2.1 ≠ k := by
        intro op hop hek
        exact hnd2.1 (hek ▸ List.mem_map.2 ⟨op, hop, rfl⟩)
      unfold phase2
      by_cases hr : posInRange pos tokens.length = true
      · simp only [hr, if_true]
        cases hda : dictGet ((dictGet inf.word_dict
            (tokens.getD (posIndex pos tokens.length) "")).getD emptyAttrs).forms k with
        | none =>
          rw [phase2_fst_notin hrest]
          have : opSat (focusAttrs inf tokens pos) k = false := by
            unfold opSat focusAttrs
            rw [hda]
          rw [this]
          simp
        | some vs =>
          by_cases hvs : vs.isEmpty = true
          · simp only [hvs, if_true]
            rw [phase2_fst_notin hrest]
            have : opSat (focusAttrs inf tokens pos) k = false := by
              unfold opSat focusAttrs
              rw [hda]
              simp [hvs]
            rw [this]
            simp
          · rw [Bool.not_eq_true] at hvs
            simp only [hvs, Bool.false_eq_true, if_false]
            rw [phase2_fst_notin hrest, dictGet_dictInsert_self]
            have : opSat (focusAttrs inf tokens pos) k = true := by
              unfold opSat focusAttrs
              rw [hda]
              simp [hvs]
            rw [this]
            have hgd : dictGet (focusAttrs inf tokens pos).forms k = some vs := by
              unfold focusAttrs
              exact hda
            rw [hgd]
            simp
      · rw [Bool.not_eq_true] at hr
        simp only [hr, Bool.false_eq_true, if_false]
        rw [phase2_fst_notin hrest]
    · have hl1 : l1 ≠ k := by
        intro hek
        exact hnd2.1 (hek ▸ List.mem_map.2 ⟨(pos, k, none), hm, rfl⟩)
      unfold phase2
      by_cases hr : posInRange p1 tokens.length = true
      · simp only [hr, if_true]
        cases hda : dictGet ((dictGet inf.word_dict
            (tokens.getD (posIndex p1 tokens.length) "")).getD emptyAttrs).forms l1 with
        | none =>
          cases g1 with
          | none => exact phase2_fst_get hnd2.2 hm
          | some g =>
            rw [phase2_fst_get hnd2.2 hm]
            by_cases hrr : posInRange pos tokens.length = true <;>
              by_cases hsat : opSat (focusAttrs inf tokens pos) k = true <;>
              simp [hrr, hsat, dictGet_dictInsert_ne (Ne.symm hl1)]
        | some vs =>
          by_cases hvs : vs.isEmpty = true
          · simp only [hvs, if_true]
            cases g1 with
            | none => exact phase2_fst_get hnd2.2 hm
            | some g =>
              rw [phase2_fst_get hnd2.2 hm]
              by_cases hrr : posInRange pos tokens.length = true <;>
                by_cases hsat : opSat (focusAttrs inf tokens pos) k = true <;>
                simp [hrr, hsat, dictGet_dictInsert_ne (Ne.symm hl1)]
          · rw [Bool.not_eq_true] at hvs
            simp only [hvs, Bool.false_eq_true, if_false]
            rw [phase2_fst_get hnd2.2 hm]
            by_cases hrr : posInRange pos tokens.length = true <;>
              by_cases hsat : opSat (focusAttrs inf tokens pos) k = true <;>
              simp [hrr, hsat, dictGet_dictInsert_ne (Ne.symm hl1)]
      · rw [Bool.not_eq_true] at hr
        simp only [hr, Bool.false_eq_true, if_false]
        exact phase2_fst_get hnd2.2 hm

theorem inflectP1_len_iff (inf : Inflector) (phrase : String) (ops : List Op) :
    (inflectP1 inf phrase ops).2.length = ops.length ↔
      ∀ op ∈ ops, opSat (inflectDa inf phrase) op.2.1 = true := by
  unfold inflectP1
  rw [phase1_snd]
  simp only [List.nil_append, List.length_map]
  exact List.filter_length_eq_length

theorem inflectOut3_get {inf : Inflector} {phrase : String} {ops : List Op}
    {k : String} (h1 : k ≠ "_ph") (h2 : k ≠ "_pi") :
    dictGet (inflectOut3 inf phrase ops) k =
      dictGet (inflectP1 inf phrase ops).1 k := by
  unfold inflectOut3 inflectOut2
  have hph : dictGet
      (if (inflectP1 inf phrase ops).2.isEmpty = true then
        (inflectP1 inf phrase ops).1
      else dictInsert (inflectP1 inf phrase ops).1 "_ph"
        (OutVal.strs (inflectP1 inf phrase ops).2)) k =
      dictGet (inflectP1 inf phrase ops).1 k := by
    split
    · rfl
    · exact dictGet_dictInsert_ne h1 _ _
  rcases hqi : (inflectDa inf phrase).i with _ | q
  · simp only [hqi]
    exact hph
  · simp only [hqi]
    by_cases hq : q = 0
    · simp only [hq, if_true]
      exact hph
    · simp only [hq, if_false]
      rw [dictGet_dictInsert_ne h2]
      exact hph

theorem dictGet_single_o (v : OutVal) {k : String} (hk : k ≠ "o") :
    dictGet [("o", v)] k = none := by
  unfold dictGet
  rw [List.find?_cons_of_neg _ (by simp; exact fun h => hk h.symm)]
  rfl

theorem dictGet_single_o_self (v : OutVal) : dictGet [("o", v)] "o" = some v := by
  unfold dictGet
  rw [List.find?_cons_of_pos _ (by simp)]
  rfl

/-- C7: with fallback generation disabled, a requested label is absent
from the result map exactly when the whole-phrase record lacks that
label (in the source's truthy sense) and either the focus position is
out of range for the token count or the focus token's record lacks the
label; no error path exists (the embedding is total) and every result
map contains the canonical original phrase under `"o"`. -/
theorem C7_label_absence (inf : Inflector) (phrase : String) (ops : List Op)
    (hops : ops = stripGens nounOpsG ∨ ops = stripGens verbOpsG ∨
      ops = stripGens adjOpsG ∨ ops = stripGens advOpsG ∨ ops = stripGens allOpsG)
    (pos : Int) (L : String) (g : Option (String → String))
    (hmem : (pos, L, g) ∈ ops) :
    (dictGet (InflectImpl inf phrase ops) L = none ↔
      (opSat (inflectDa inf phrase) L = false ∧
        (posInRange pos (tokenize phrase).length = false ∨
          opSat (focusAttrs inf (tokenize phrase) pos) L = false))) ∧
    dictGet (InflectImpl inf phrase ops) "o" = some (.str (canon phrase)) := by
  have hnd : (opsLabels ops).Nodup := by
    rcases hops with rfl | rfl | rfl | rfl | rfl <;> decide
  have hgen : ∀ op ∈ ops, op.2.2 = none := by
    rcases hops with rfl | rfl | rfl | rfl | rfl <;>
      · intro op hop
        rcases List.mem_map.1 hop with ⟨x, _, rfl⟩
        rfl
  have hspecial : ∀ op ∈ ops, op.2.1 ≠ "o" ∧ op.2.1 ≠ "_ph" ∧
      op.2.1 ≠ "_pi" ∧ op.2.1 ≠ "_th" := by
    rcases hops with rfl | rfl | rfl | rfl | rfl <;> decide
  have hgnone : g = none := hgen _ hmem
  subst hgnone
  obtain ⟨hLo, hLph, hLpi, hLth⟩ := hspecial _ hmem
  have hnoO : ∀ op ∈ ops, op.2.1 ≠ "o" := fun op hop => (hspecial op hop).1
  have hp1L : dictGet (inflectP1 inf phrase ops).1 L =
      (if opSat (inflectDa inf phrase) L then
        some (.strs ((dictGet (inflectDa inf phrase).forms L).getD []))
       else none) := by
    unfold inflectP1
    rw [phase1_fst_get hnd hmem]
    rw [dictGet_single_o _ hLo]
  have hp1o : dictGet (inflectP1 inf phrase ops).1 "o" =
      some (.str (canon phrase)) := by
    unfold inflectP1
    rw [phase1_fst_notin hnoO]
    exact dictGet_single_o_self _
  unfold InflectImpl
  by_cases hlen : (inflectP1 inf phrase ops).2.length = ops.length
  · simp only [hlen, if_true]
    have hsatL : opSat (inflectDa inf phrase) L = true :=
      (inflectP1_len_iff inf phrase ops).1 hlen (pos, L, none) hmem
    constructor
    · rw [inflectOut3_get hLph hLpi, hp1L, hsatL]
      simp
    · rw [inflectOut3_get (by decide) (by decide), hp1o]
  · simp only [hlen, if_false]
    have hth : ∀ k, k ≠ "_th" →
        dictGet (if (phase2 inf (tokenize phrase) ops
            (inflectOut3 inf phrase ops) []).2.isEmpty then
          (phase2 inf (tokenize phrase) ops (inflectOut3 inf phrase ops) []).1
        else
          dictInsert (phase2 inf (tokenize phrase) ops
            (inflectOut3 inf phrase ops) []).1 "_th"
            (.strs (phase2 inf (tokenize phrase) ops
              (inflectOut3 inf phrase ops) []).2)) k =
        dictGet (phase2 inf (tokenize phrase) ops
          (inflectOut3 inf phrase ops) []).1 k := by
      intro k hk
      split
      · rfl
      · exact dictGet_dictInsert_ne hk _ _
    constructor
    · rw [hth L hLth]
      rw [phase2_fst_get hnd hmem]
      rw [inflectOut3_get hLph hLpi, hp1L]
      by_cases hr : posInRange pos (tokenize phrase).length = true <;>
        by_cases hts : opSat (focusAttrs inf (tokenize phrase) pos) L = true <;>
        by_cases hps : opSat (inflectDa inf phrase) L = true <;>
        simp [hr, hts, hps]
    · rw [hth "o" (by decide)]
      rw [phase2_fst_notin hnoO]
      rw [inflectOut3_get (by decide) (by decide), hp1o]

theorem C7_label_absence_witness :
    (dictGet (InflectImpl ⟨[], []⟩ "run" (stripGens nounOpsG)) "np" = none ↔
      (opSat (inflectDa ⟨[], []⟩ "run") "np" = false ∧
        (posInRange (-1) (tokenize "run").length = false ∨
          opSat (focusAttrs ⟨[], []⟩ (tokenize "run") (-1)) "np" = false))) ∧
    dictGet (InflectImpl ⟨[], []⟩ "run" (stripGens nounOpsG)) "o" =
      some (.str (canon "run")) :=
  C7_label_absence ⟨[], []⟩ "run" (stripGens nounOpsG) (Or.inl rfl) (-1) "np" none
    (List.mem_singleton.2 rfl)

theorem inflectTh_get {inf : Inflector} {tokens : List String} {ops : List Op}
    {out : ResultMap} {k : String} (hk : k ≠ "_th") :
    dictGet
      (if (phase2 inf tokens ops out []).2.isEmpty then
        (phase2 inf tokens ops out []).1
      else dictInsert (phase2 inf tokens ops out []).1 "_th"
        (.strs (phase2 inf tokens ops out []).2)) k =
      dictGet (phase2 inf tokens ops out []).1 k := by
  split
  · rfl
  · exact dictGet_dictInsert_ne hk _ _

theorem opSat_of_get {da : WordAttrs} {L : String} {vs : List String}
    (hL : dictGet da.forms L = some vs) (hvs : vs ≠ []) : opSat da L = true := by
  unfold opSat
  rw [hL]
  cases vs with
  | nil => exact absurd rfl hvs
  | cons v vs2 => rfl

/-- Inflecting a single-token base form with fallback disabled
reproduces a stored label's value list exactly: the token-level pass can
only overwrite the phrase-level entry with the same list. -/
theorem inflectImpl_single_token (inf : Inflector) (b : String)
    (attrs : WordAttrs) (vs : List String) (ops : List Op) (pos : Int)
    (L : String)
    (htok : tokenize b = [b])
    (hb : dictGet inf.word_dict b = some attrs)
    (hL : dictGet attrs.forms L = some vs) (hvs : vs ≠ [])
    (hnd : (opsLabels ops).Nodup)
    (hmem : (pos, L, none) ∈ ops)
    (hpos : pos = 0 ∨ pos = -1)
    (hspecial : ∀ op ∈ ops, op.2.1 ≠ "o" ∧ op.2.1 ≠ "_ph" ∧
      op.2.1 ≠ "_pi" ∧ op.2.1 ≠ "_th") :
    dictGet (InflectImpl inf b ops) L = some (.strs vs) := by
  have hcanon : canon b = b := by
    unfold canon
    rw [htok]
    rfl
  have hda : inflectDa inf b = attrs := by
    unfold inflectDa
    rw [hcanon, hb]
    rfl
  have hsatL : opSat (inflectDa inf b) L = true := by
    rw [hda]
    exact opSat_of_get hL hvs
  obtain ⟨hLo, hLph, hLpi, hLth⟩ := hspecial _ hmem
  have hp1L : dictGet (inflectP1 inf b ops).1 L = some (.strs vs) := by
    unfold inflectP1
    rw [phase1_fst_get hnd hmem, hsatL]
    rw [hda, hL]
    simp
  unfold InflectImpl
  by_cases hlen : (inflectP1 inf b ops).2.length = ops.length
  · simp only [hlen, if_true]
    rw [inflectOut3_get hLph hLpi]
    exact hp1L
  · simp only [hlen, if_false]
    rw [inflectTh_get hLth, phase2_fst_get hnd hmem, htok]
    have hidx : posIndex pos ([b] : List String).length = 0 := by
      rcases hpos with rfl | rfl <;> rfl
    have hr : posInRange pos ([b] : List String).length = true := by
      rcases hpos with rfl | rfl <;> rfl
    have hfa : focusAttrs inf [b] pos = attrs := by
      unfold focusAttrs
      rw [hidx]
      show (dictGet inf.word_dict b).getD emptyAttrs = attrs
      rw [hb]
      rfl
    have hts : opSat (focusAttrs inf [b] pos) L = true := by
      rw [hfa]
      exact opSat_of_get hL hvs
    rw [hr, hts]
    simp only [if_true]
    rw [hfa, hL, hidx]
    simp only [Option.getD_some]
    have hmap : vs.map (fun v => joinSp (([b] : List String).set 0 v)) = vs := by
      have : (fun v => joinSp (([b] : List String).set 0 v)) = fun v : String => v :=
        funext fun v => rfl
      rw [this, List.map_id']
    rw [hmap]

theorem scanLabel_mem_some {target : String} :
    ∀ {c : ℚ} {vs : List String}, target ∈ vs →
      ∃ mc, scanLabel c target vs = some mc
  | _, [], h => absurd h (List.not_mem_nil _)
  | c, v :: vs2, h => by
    unfold scanLabel
    by_cases hv : v = target
    · exact ⟨c, by rw [if_pos hv]⟩
    · rcases List.mem_cons.1 h with he | hm
      · exact absurd he.symm hv
      · rw [if_neg hv]
        exact scanLabel_mem_some hm

theorem scanFormsAux_labels_mono {target L : String} :
    ∀ {forms : List (String × List String)} {acc : ℚ × List String},
      L ∈ acc.2 → L ∈ (scanFormsAux target forms acc).2
  | [], _, h => h
  | kv :: rest, acc, h => by
    unfold scanFormsAux
    cases hco : costOf kv.1 with
    | none => exact scanFormsAux_labels_mono h
    | some c =>
      by_cases hc0 : c = 0
      · simp only [hc0, if_true]
        exact scanFormsAux_labels_mono h
      · simp only [hc0, if_false]
        cases hsl : scanLabel c target kv.2 with
        | none => exact scanFormsAux_labels_mono h
        | some mc =>
          exact scanFormsAux_labels_mono (List.mem_append_left _ h)

theorem scanFormsAux_label_mem {target L : String} {vs : List String} {cL : ℚ}
    (hc : costOf L = some cL) (hc0 : cL ≠ 0) :
    ∀ {forms : List (String × List String)} {acc : ℚ × List String},
      (L, vs) ∈ forms → target ∈ vs →
      L ∈ (scanFormsAux target forms acc).2
  | [], _, hm, _ => absurd hm (List.not_mem_nil _)
  | kv :: rest, acc, hm, htv => by
    rcases List.mem_cons.1 hm with he | hm2
    · rw [← he]
      unfold scanFormsAux
      simp only
      rw [hc]
      simp only [hc0, if_false]
      rcases scanLabel_mem_some (c := cL) htv with ⟨mc, hmc⟩
      rw [hmc]
      exact scanFormsAux_labels_mono (List.mem_append_right _ (List.mem_singleton.2 rfl))
    · unfold scanFormsAux
      cases hco : costOf kv.1 with
      | none => exact scanFormsAux_label_mem hc hc0 hm2 htv
      | some c =>
        by_cases hcc : c = 0
        · simp only [hcc, if_true]
          exact scanFormsAux_label_mem hc hc0 hm2 htv
        · simp only [hcc, if_false]
          cases hsl : scanLabel c target kv.2 with
          | none => exact scanFormsAux_label_mem hc hc0 hm2 htv
          | some mc => exact scanFormsAux_label_mem hc hc0 hm2 htv

theorem scanForms_label_mem {target L : String} {vs : List String} {cL : ℚ}
    {forms : List (String × List String)}
    (hm : (L, vs) ∈ forms) (htv : target ∈ vs)
    (hc : costOf L = some cL) (hc0 : cL ≠ 0) :
    L ∈ (scanForms target forms).2 :=
  scanFormsAux_label_mem hc hc0 hm htv

theorem step3_added {inf : Inflector} {orig : String} :
    ∀ {bs uniq acc : List _} {b : String} {cand : Cand},
      b ∈ bs → uniq.contains b = false → candFor inf orig b = some cand →
      cand ∈ (step3 inf orig bs uniq acc).1
  | [], _, _, _, _, hm, _, _ => absurd hm (List.not_mem_nil _)
  | x :: rest, uniq, acc, b, cand, hm, hu, hcf => by
    by_cases hbx : x = b
    · subst hbx
      unfold step3
      rw [hu]
      simp only [Bool.false_eq_true, if_false]
      rw [hcf]
      exact step3_acc_sub (List.mem_append_right _ (List.mem_singleton.2 rfl))
    · have hm2 : b ∈ rest := by
        rcases List.mem_cons.1 hm with he | h2
        · exact absurd he.symm hbx
        · exact h2
      unfold step3
      by_cases hcont : uniq.contains x = true
      · simp only [hcont, if_true]
        exact step3_added hm2 hu hcf
      · rw [Bool.not_eq_true] at hcont
        simp only [hcont, Bool.false_eq_true, if_false]
        cases hcx : candFor inf orig x with
        | none => exact step3_added hm2 hu hcf
        | some c2 =>
          apply step3_added hm2 ?_ hcf
          rw [contains_false_iff] at hu ⊢
          intro hmem2
          rcases List.mem_append.1 hmem2 with h3 | h3
          · exact hu h3
          · exact hbx (List.mem_singleton.1 h3).symm

/-- For a loaded store, every stored `(label, value)` pair whose value is
canonical and differs from the base form is found by `Search`: the base
appears among the candidates with the label among its matched labels. -/
theorem search_finds_record {lines : List String} {inf : Inflector}
    {b L : String} {attrs : WordAttrs} {vs : List String}
    (hload : loadInflector lines = some inf)
    (hb : dictGet inf.word_dict b = some attrs)
    (hL : dictGet attrs.forms L = some vs)
    (cL : ℚ) (hcost : costOf L = some cL) (hc0 : cL ≠ 0) :
    ∀ v ∈ vs, canon v = v → v ≠ b →
      ∃ cand ∈ Search inf v, cand.1 = b ∧ L ∈ cand.2.2 := by
  intro v hv hvcanon hvb
  have hidx : b ∈ indexGet inf.index v :=
    loadInflector_invCompl hload b attrs L vs v hb hL hv
  have htruthy : attrsTruthy attrs = true := by
    unfold attrsTruthy
    cases hf : attrs.forms with
    | nil =>
      rw [hf] at hL
      simp [dictGet, List.find?] at hL
    | cons p ps => rfl
  have hcf : candFor inf v b =
      some (b, qadd (searchIdf attrs) (scanForms v attrs.forms).1,
        (scanForms v attrs.forms).2) := by
    unfold candFor
    rw [hb]
    simp [htruthy]
  have hcm : (b, qadd (searchIdf attrs) (scanForms v attrs.forms).1,
      (scanForms v attrs.forms).2) ∈ (searchMatches23 inf v).1 := by
    rw [searchMatches23_unfold, hvcanon]
    apply step3_added hidx ?_ hcf
    rw [contains_false_iff]
    intro hmem
    exact hvb (List.mem_singleton.1 hmem).symm
  have hne : (sortCands (searchMatches23 inf v).1).isEmpty = false := by
    rcases hsort : sortCands (searchMatches23 inf v).1 with _ | ⟨hh, tt⟩
    · exfalso
      have := mem_sortCands.2 hcm
      rw [hsort] at this
      cases this
    · rfl
  have hsearch : Search inf v = sortCands (sortCands (searchMatches23 inf v).1) := by
    rw [Search_unfold]
    simp [hne]
  refine ⟨(b, qadd (searchIdf attrs) (scanForms v attrs.forms).1,
      (scanForms v attrs.forms).2), ?_, rfl, ?_⟩
  · rw [hsearch]
    exact mem_sortCands.2 (mem_sortCands.2 hcm)
  · exact scanForms_label_mem (dictGet_mem hL) hv hcost hc0

/-- The Inflect operation responsible for a label. -/
def matchingInflect (L : String) :
    Option (Inflector → String → Bool → ResultMap) :=
  if L = "np" then some InflectNoun
  else if L = "vs" ∨ L = "vc" ∨ L = "vp" ∨ L = "vx" then some InflectVerb
  else if L = "ajc" ∨ L = "ajs" then some InflectAdjective
  else if L = "avc" ∨ L = "avs" then some InflectAdverb
  else none

/-- C4 (amended): the round-trip holds for single-token base forms and
canonical values distinct from the base: if the loaded store's final
record for `b` (a single word-character token) carries `(L, vs)`, the
matching Inflect operation with fallback disabled returns `vs` under `L`
exactly, and for every canonical `v ∈ vs` with `v ≠ b`, `Search v`
includes `b` among its candidates with `L` among that candidate's
matched labels.  (The original claim fails when a value equals its base
form, when a value or base is not in canonical token form, and for
multi-token bases whose focus token also carries the label; see the
counterexample.) -/
theorem C4_amended (lines : List String) (inf : Inflector) (b L : String)
    (attrs : WordAttrs) (vs : List String)
    (F : Inflector → String → Bool → ResultMap)
    (hload : loadInflector lines = some inf)
    (hb : dictGet inf.word_dict b = some attrs)
    (hL : dictGet attrs.forms L = some vs) (hvs : vs ≠ [])
    (htok : tokenize b = [b])
    (hF : matchingInflect L = some F) :
    dictGet (F inf b false) L = some (.strs vs) ∧
    ∀ v ∈ vs, canon v = v → v ≠ b →
      ∃ cand ∈ Search inf v, cand.1 = b ∧ L ∈ cand.2.2 := by
  unfold matchingInflect at hF
  by_cases h1 : L = "np"
  · subst h1
    simp only [if_true] at hF
    cases hF
    refine ⟨?_, search_finds_record hload hb hL 1 (by decide) (by decide)⟩
    exact inflectImpl_single_token inf b attrs vs _ (-1) "np" htok hb hL hvs
      (by decide) (List.mem_singleton.2 rfl) (Or.inr rfl) (by decide)
  · simp only [h1, if_false] at hF
    by_cases h2 : L = "vs" ∨ L = "vc" ∨ L = "vp" ∨ L = "vx"
    · simp only [h2, if_true] at hF
      cases hF
      rcases h2 with rfl | rfl | rfl | rfl
      · exact ⟨inflectImpl_single_token inf b attrs vs _ 0 "vs" htok hb hL hvs
          (by decide) (List.mem_cons_self _ _) (Or.inl rfl) (by decide),
          search_finds_record hload hb hL 1 (by decide) (by decide)⟩
      · exact ⟨inflectImpl_single_token inf b attrs vs _ 0 "vc" htok hb hL hvs
          (by decide) (List.mem_cons_of_mem _ (List.mem_cons_self _ _))
          (Or.inl rfl) (by decide),
          search_finds_record hload hb hL 1 (by decide) (by decide)⟩
      · exact ⟨inflectImpl_single_token inf b attrs vs _ 0 "vp" htok hb hL hvs
          (by decide)
          (List.mem_cons_of_mem _ (List.mem_cons_of_mem _ (List.mem_cons_self _ _)))
          (Or.inl rfl) (by decide),
          search_finds_record hload hb hL 1 (by decide) (by decide)⟩
      · exact ⟨inflectImpl_single_token inf b attrs vs _ 0 "vx" htok hb hL hvs
          (by decide)
          (List.mem_cons_of_mem _ (List.mem_cons_of_mem _
            (List.mem_cons_of_mem _ (List.mem_cons_self _ _))))
          (Or.inl rfl) (by decide),
          search_finds_record hload hb hL 1 (by decide) (by decide)⟩
    · simp only [h2, if_false] at hF
      by_cases h3 : L = "ajc" ∨ L = "ajs"
      · simp only [h3, if_true] at hF
        cases hF
        rcases h3 with rfl | rfl
        · exact ⟨inflectImpl_single_token inf b attrs vs _ 0 "ajc" htok hb hL hvs
            (by decide) (List.mem_cons_self _ _) (Or.inl rfl) (by decide),
            search_finds_record hload hb hL 2 (by decide) (by decide)⟩
        · exact ⟨inflectImpl_single_token inf b attrs vs _ 0 "ajs" htok hb hL hvs
            (by decide) (List.mem_cons_of_mem _ (List.mem_cons_self _ _))
            (Or.inl rfl) (by decide),
            search_finds_record hload hb hL 2 (by decide) (by decide)⟩
      · simp only [h3, if_false] at hF
        by_cases h4 : L = "avc" ∨ L = "avs"
        · simp only [h4, if_true] at hF
          cases hF
          rcases h4 with rfl | rfl
          · exact ⟨inflectImpl_single_token inf b attrs vs _ (-1) "avc" htok hb hL hvs
              (by decide) (List.mem_cons_self _ _) (Or.inr rfl) (by decide),
              search_finds_record hload hb hL 2 (by decide) (by decide)⟩
          · exact ⟨inflectImpl_single_token inf b attrs vs _ (-1) "avs" htok hb hL hvs
              (by decide) (List.mem_cons_of_mem _ (List.mem_cons_self _ _))
              (Or.inr rfl) (by decide),
              search_finds_record hload hb hL 2 (by decide) (by decide)⟩
        · simp only [h4, if_false] at hF
          cases hF

def infC4w : Inflector :=
  ⟨[("run", ⟨[("vc", ["running"])], some 3⟩)], [("running", ["run"])]⟩

theorem C4_amended_witness :
    dictGet (InflectVerb infC4w "run" false) "vc" = some (.strs ["running"]) ∧
    ∀ v ∈ ["running"], canon v = v → v ≠ "run" →
      ∃ cand ∈ Search infC4w v, cand.1 = "run" ∧ "vc" ∈ cand.2.2 :=
  C4_amended ["run\ti:3.0\tvc:running"] infC4w "run" "vc"
    ⟨[("vc", ["running"])], some 3⟩ ["running"] InflectVerb (by decide)
    (by decide) rfl (by decide) (by decide) rfl

theorem tokensAux_chars :
    ∀ (cs acc : List Char), (∀ c ∈ acc, isWordChar c = true) →
      ∀ t ∈ tokensAux cs acc, ∀ ch ∈ t.toList, isWordChar ch = true
  | [], acc, hacc, t, ht, ch, hch => by
    unfold tokensAux at ht
    by_cases he : acc.isEmpty = true
    · simp [he] at ht
    · rw [Bool.not_eq_true] at he
      simp only [he, Bool.false_eq_true, if_false] at ht
      have : t = String.mk acc.reverse := List.mem_singleton.1 ht
      subst this
      exact hacc ch (List.mem_reverse.1 hch)
  | c :: cs, acc, hacc, t, ht, ch, hch => by
    unfold tokensAux at ht
    by_cases hw : isWordChar c = true
    · simp only [hw, if_true] at ht
      refine tokensAux_chars cs (c :: acc) ?_ t ht ch hch
      intro c2 hc2
      rcases List.mem_cons.1 hc2 with rfl | h2
      · exact hw
      · exact hacc c2 h2
    · rw [Bool.not_eq_true] at hw
      simp only [hw, Bool.false_eq_true, if_false] at ht
      by_cases he : acc.isEmpty = true
      · simp only [he, if_true] at ht
        exact tokensAux_chars cs [] (by intro c2 hc2; cases hc2) t ht ch hch
      · rw [Bool.not_eq_true] at he
        simp only [he, Bool.false_eq_true, if_false] at ht
        rcases List.mem_cons.1 ht with rfl | h2
        · exact hacc ch (List.mem_reverse.1 hch)
        · exact tokensAux_chars cs [] (by intro c2 hc2; cases hc2) t h2 ch hch

theorem tokenize_chars {phrase : String} :
    ∀ t ∈ tokenize phrase, ∀ ch ∈ t.toList, isWordChar ch = true :=
  tokensAux_chars _ [] (by intro c hc; cases hc)

theorem tokenize_colonFree {phrase : String} :
    ∀ t ∈ tokenize phrase, ':' ∉ t.toList := by
  intro t ht hch
  have := tokenize_chars t ht ':' hch
  exact absurd this (by decide)

theorem joinSp_colonFree :
    ∀ {ts : List String}, (∀ t ∈ ts, ':' ∉ t.toList) → ':' ∉ (joinSp ts).toList
  | [], _, h => by cases h
  | [t], hts, h => hts t (List.mem_singleton.2 rfl) h
  | t :: t2 :: ts, hts, h => by
    have : (joinSp (t :: t2 :: ts)).toList =
        t.toList ++ (" ".toList ++ (joinSp (t2 :: ts)).toList) := by
      show (t ++ " " ++ joinSp (t2 :: ts)).data = _
      rw [String.data_append, String.data_append]
      rw [List.append_assoc]
      rfl
    rw [this] at h
    rcases List.mem_append.1 h with h2 | h2
    · exact hts t (List.mem_cons_self _ _) h2
    · rcases List.mem_append.1 h2 with h3 | h3
      · cases List.mem_singleton.1 h3
      · exact joinSp_colonFree
          (fun t3 ht3 => hts t3 (List.mem_cons_of_mem _ ht3)) h3

theorem canon_colonFree (phrase : String) : ':' ∉ (canon phrase).toList :=
  joinSp_colonFree (fun t ht => tokenize_colonFree t ht)

theorem getD_pred {P : String → Prop} :
    ∀ (l : List String) (idx : ℕ), (∀ t ∈ l, P t) → P "" → P (l.getD idx "")
  | [], idx, _, hd => by simp [List.getD]; exact hd
  | t :: ts, 0, hl, _ => by
    simpa [List.getD] using hl t (List.mem_cons_self _ _)
  | t :: ts, idx + 1, hl, hd => by
    have := getD_pred ts idx (fun t2 ht2 => hl t2 (List.mem_cons_of_mem _ ht2)) hd
    simpa [List.getD] using this

/-- A field of the form `a:value`. -/
def isAField (f : String) : Bool :=
  match splitStr ':' f with
  | [l, _] => l == "a"
  | _ => false

/-- Two field sequences that agree except for inserted or removed
`a:value` fields. -/
inductive AEquivFields : List String → List String → Prop
  | nil : AEquivFields [] []
  | cons (f : String) {fs1 fs2 : List String} :
      AEquivFields fs1 fs2 → AEquivFields (f :: fs1) (f :: fs2)
  | left {f : String} {fs1 fs2 : List String} :
      isAField f = true → AEquivFields fs1 fs2 → AEquivFields (f :: fs1) fs2
  | right {f : String} {fs1 fs2 : List String} :
      isAField f = true → AEquivFields fs1 fs2 → AEquivFields fs1 (f :: fs2)

/-- Two data lines that differ only in `a:value` fields: the base-form
field is identical, the remaining fields agree up to `a:value`
insertions, and the `a` fields do not decide whether the line reaches
the two-field minimum. -/
def lineEquiv (l1 l2 : String) : Prop :=
  ∃ f0 fs1 fs2,
    splitStr '\t' (String.mk (trimChars l1.toList)) = f0 :: fs1 ∧
    splitStr '\t' (String.mk (trimChars l2.toList)) = f0 :: fs2 ∧
    AEquivFields fs1 fs2 ∧ (fs1 = [] ↔ fs2 = [])

/-- Record equivalence up to entries under label `a`. -/
def attrsEquiv (a1 a2 : WordAttrs) : Prop :=
  a1.i = a2.i ∧ ∀ L, L ≠ "a" → dictGet a1.forms L = dictGet a2.forms L

/-- Store equivalence on all colon-free keys (the only keys reachable
from a tokenized phrase), through the `or {}` view used by the inflect
operations. -/
def wdEquiv (w1 w2 : List (String × WordAttrs)) : Prop :=
  ∀ key : String, ':' ∉ key.toList →
    attrsEquiv ((dictGet w1 key).getD emptyAttrs) ((dictGet w2 key).getD emptyAttrs)

theorem attrsEquiv_refl (a : WordAttrs) : attrsEquiv a a :=
  ⟨rfl, fun _ _ => rfl⟩

theorem procField_attrs_equiv {f0 : String} {f : String}
    {st1 st2 : WordAttrs × List (String × List String)}
    {r1 r2 : WordAttrs × List (String × List String)}
    (h : attrsEquiv st1.1 st2.1)
    (h1 : procField f0 st1 f = some r1) (h2 : procField f0 st2 f = some r2) :
    attrsEquiv r1.1 r2.1 := by
  unfold procField at h1 h2
  rcases hsp : splitStr ':' f with _ | ⟨l1, _ | ⟨l2, rest⟩⟩
  · rw [hsp] at h1 h2
    cases h1
    cases h2
    exact h
  · rw [hsp] at h1 h2
    cases h1
    cases h2
    exact h
  · rw [hsp] at h1 h2
    cases rest with
    | nil =>
      by_cases hl : isLabel l1 = true
      · simp only [hl, if_true] at h1 h2
        cases h1
        cases h2
        refine ⟨h.1, ?_⟩
        intro L hLa
        by_cases hLl : L = l1
        · subst hLl
          rw [dictGet_dictInsert_self, dictGet_dictInsert_self]
        · rw [dictGet_dictInsert_ne hLl, dictGet_dictInsert_ne hLl]
          exact h.2 L hLa
      · rw [Bool.not_eq_true] at hl
        simp only [hl, Bool.false_eq_true, if_false] at h1 h2
        by_cases hi : l1 = "i"
        · simp only [hi, if_true] at h1 h2
          cases hpq : parseFloat l2 with
          | none => rw [hpq] at h1; cases h1
          | some q =>
            rw [hpq] at h1 h2
            cases h1
            cases h2
            exact ⟨rfl, h.2⟩
        · simp only [hi, if_false] at h1 h2
          cases h1
          cases h2
          exact h
    | cons l3 rest2 =>
      cases h1
      cases h2
      exact h

theorem procField_afield_equiv {f0 f : String}
    {st r : WordAttrs × List (String × List String)}
    (ha : isAField f = true) (h : procField f0 st f = some r) :
    r.1.i = st.1.i ∧ ∀ L, L ≠ "a" → dictGet r.1.forms L = dictGet st.1.forms L := by
  unfold isAField at ha
  rcases hsp : splitStr ':' f with _ | ⟨l1, _ | ⟨l2, rest⟩⟩ <;> rw [hsp] at ha
  · cases ha
  · cases ha
  · cases rest with
    | nil =>
      have hl1 : l1 = "a" := by simpa using ha
      subst hl1
      unfold procField at h
      rw [hsp] at h
      have hlab : isLabel "a" = true := by decide
      simp only [hlab, if_true] at h
      cases h
      refine ⟨rfl, ?_⟩
      intro L hLa
      rw [dictGet_dictInsert_ne hLa]
    | cons l3 rest2 => cases ha

theorem procFields_aequiv {f0 : String} :
    ∀ {fs1 fs2 : List String}, AEquivFields fs1 fs2 →
      ∀ {st1 st2 r1 r2 : WordAttrs × List (String × List String)},
        attrsEquiv st1.1 st2.1 →
        procFields f0 fs1 st1 = some r1 →
        procFields f0 fs2 st2 = some r2 →
        attrsEquiv r1.1 r2.1 := by
  intro fs1 fs2 hae
  induction hae with
  | nil =>
    intro st1 st2 r1 r2 h h1 h2
    cases h1
    cases h2
    exact h
  | cons f hfs ih =>
    intro st1 st2 r1 r2 h h1 h2
    unfold procFields at h1 h2
    cases hp1 : procField f0 st1 f with
    | none => rw [hp1] at h1; cases h1
    | some m1 =>
      cases hp2 : procField f0 st2 f with
      | none => rw [hp2] at h2; cases h2
      | some m2 =>
        rw [hp1] at h1
        rw [hp2] at h2
        exact ih (procField_attrs_equiv h hp1 hp2) h1 h2
  | left ha hfs ih =>
    intro st1 st2 r1 r2 h h1 h2
    unfold procFields at h1
    cases hp1 : procField f0 st1 _ with
    | none => rw [hp1] at h1; cases h1
    | some m1 =>
      rw [hp1] at h1
      have hm := procField_afield_equiv ha hp1
      refine ih ?_ h1 h2
      exact ⟨hm.1.trans h.1, fun L hLa => (hm.2 L hLa).trans (h.2 L hLa)⟩
  | right ha hfs ih =>
    intro st1 st2 r1 r2 h h1 h2
    unfold procFields at h2
    cases hp2 : procField f0 st2 _ with
    | none => rw [hp2] at h2; cases h2
    | some m2 =>
      rw [hp2] at h2
      have hm := procField_afield_equiv ha hp2
      refine ih ?_ h1 h2
      exact ⟨h.1.trans hm.1.symm, fun L hLa => (h.2 L hLa).trans (hm.2 L hLa).symm⟩

theorem procLine_wdEquiv {inf1 inf2 inf1' inf2' : Inflector} {l1 l2 : String}
    (hle : lineEquiv l1 l2)
    (hw : wdEquiv inf1.word_dict inf2.word_dict)
    (h1 : procLine inf1 l1 = some inf1') (h2 : procLine inf2 l2 = some inf2') :
    wdEquiv inf1'.word_dict inf2'.word_dict := by
  obtain ⟨f0, fs1, fs2, hf1, hf2, hae, hiff⟩ := hle
  unfold procLine at h1 h2
  rw [hf1] at h1
  rw [hf2] at h2
  by_cases hfs1 : fs1 = []
  · have hfs2 : fs2 = [] := hiff.1 hfs1
    subst hfs1 hfs2
    rw [if_pos (by simp)] at h1
    rw [if_pos (by simp)] at h2
    cases h1
    cases h2
    exact hw
  · have hfs2 : fs2 ≠ [] := fun he => hfs1 (hiff.2 he)
    rw [if_neg (by
      simp only [List.length_cons, not_lt]
      have : fs1.length ≠ 0 := fun he => hfs1 (List.length_eq_zero.1 he)
      omega)] at h1
    rw [if_neg (by
      simp only [List.length_cons, not_lt]
      have : fs2.length ≠ 0 := fun he => hfs2 (List.length_eq_zero.1 he)
      omega)] at h2
    dsimp only at h1 h2
    cases hp1 : procFields f0 (f0 :: fs1) (emptyAttrs, inf1.index) with
    | none => rw [hp1] at h1; cases h1
    | some st1 =>
      cases hp2 : procFields f0 (f0 :: fs2) (emptyAttrs, inf2.index) with
      | none => rw [hp2] at h2; cases h2
      | some st2 =>
        rw [hp1] at h1
        rw [hp2] at h2
        cases h1
        cases h2
        intro key hkey
        by_cases hkf : key = f0
        · subst hkf
          show attrsEquiv ((dictGet (dictInsert inf1.word_dict key st1.1) key).getD emptyAttrs)
            ((dictGet (dictInsert inf2.word_dict key st2.1) key).getD emptyAttrs)
          rw [dictGet_dictInsert_self, dictGet_dictInsert_self]
          exact procFields_aequiv (AEquivFields.cons key hae)
            (attrsEquiv_refl emptyAttrs) hp1 hp2
        · show attrsEquiv ((dictGet (dictInsert inf1.word_dict f0 st1.1) key).getD emptyAttrs)
            ((dictGet (dictInsert inf2.word_dict f0 st2.1) key).getD emptyAttrs)
          rw [dictGet_dictInsert_ne hkf, dictGet_dictInsert_ne hkf]
          exact hw key hkey

theorem loadFrom_wdEquiv :
    ∀ {s1 s2 : List String} {inf1 inf2 inf1' inf2' : Inflector},
      List.Forall₂ lineEquiv s1 s2 →
      wdEquiv inf1.word_dict inf2.word_dict →
      loadFrom inf1 s1 = some inf1' → loadFrom inf2 s2 = some inf2' →
      wdEquiv inf1'.word_dict inf2'.word_dict := by
  intro s1 s2 inf1 inf2 inf1' inf2' hf
  induction hf generalizing inf1 inf2 with
  | nil =>
    intro hw h1 h2
    cases h1
    cases h2
    exact hw
  | cons hl hrest ih =>
    intro hw h1 h2
    unfold loadFrom at h1 h2
    rename_i l1 l2 s1' s2'
    cases hp1 : procLine inf1 l1 with
    | none => rw [hp1] at h1; cases h1
    | some m1 =>
      cases hp2 : procLine inf2 l2 with
      | none => rw [hp2] at h2; cases h2
      | some m2 =>
        rw [hp1] at h1
        rw [hp2] at h2
        exact ih (procLine_wdEquiv hl hw hp1 hp2) h1 h2

theorem phase1_congr {da1 da2 : WordAttrs} (h : attrsEquiv da1 da2) :
    ∀ (ops : List Op), (∀ op ∈ ops, op.2.1 ≠ "a") →
      ∀ (out : ResultMap) (labels : List String),
        phase1 da1 ops out labels = phase1 da2 ops out labels
  | [], _, out, labels => rfl
  | (p1, l1, g1) :: rest, hops, out, labels => by
    have hrest : ∀ op ∈ rest, op.2.1 ≠ "a" :=
      fun op hop => hops op (List.mem_cons_of_mem _ hop)
    have hl1 : l1 ≠ "a" := hops (p1, l1, g1) (List.mem_cons_self _ _)
    unfold phase1
    rw [← h.2 l1 hl1]
    cases dictGet da1.forms l1 with
    | none => exact phase1_congr h rest hrest out labels
    | some vs =>
      by_cases hvs : vs.isEmpty = true
      · simp only [hvs, if_true]
        exact phase1_congr h rest hrest out labels
      · rw [Bool.not_eq_true] at hvs
        simp only [hvs, Bool.false_eq_true, if_false]
        exact phase1_congr h rest hrest _ _

theorem phase2_congr {inf1 inf2 : Inflector}
    (hw : wdEquiv inf1.word_dict inf2.word_dict)
    {tokens : List String} (htok : ∀ t ∈ tokens, ':' ∉ t.toList) :
    ∀ (ops : List Op), (∀ op ∈ ops, op.2.1 ≠ "a") →
      ∀ (out : ResultMap) (tl : List String),
        phase2 inf1 tokens ops out tl = phase2 inf2 tokens ops out tl
  | [], _, out, tl => rfl
  | (p1, l1, g1) :: rest, hops, out, tl => by
    have hrest : ∀ op ∈ rest, op.2.1 ≠ "a" :=
      fun op hop => hops op (List.mem_cons_of_mem _ hop)
    have hl1 : l1 ≠ "a" := hops (p1, l1, g1) (List.mem_cons_self _ _)
    unfold phase2
    by_cases hr : posInRange p1 tokens.length = true
    · simp only [hr, if_true]
      have htokfree : ':' ∉ (tokens.getD (posIndex p1 tokens.length) "").toList :=
        getD_pred tokens _ htok (by intro hch; cases hch)
      have hda := hw (tokens.getD (posIndex p1 tokens.length) "") htokfree
      rw [← hda.2 l1 hl1]
      cases dictGet ((dictGet inf1.word_dict
          (tokens.getD (posIndex p1 tokens.length) "")).getD emptyAttrs).forms l1 with
      | none =>
        cases g1 with
        | none => exact phase2_congr hw htok rest hrest out tl
        | some g => exact phase2_congr hw htok rest hrest _ _
      | some vs =>
        by_cases hvs : vs.isEmpty = true
        · simp only [hvs, if_true]
          cases g1 with
          | none => exact phase2_congr hw htok rest hrest out tl
          | some g => exact phase2_congr hw htok rest hrest _ _
        · rw [Bool.not_eq_true] at hvs
          simp only [hvs, Bool.false_eq_true, if_false]
          exact phase2_congr hw htok rest hrest _ _
    · rw [Bool.not_eq_true] at hr
      simp only [hr, Bool.false_eq_true, if_false]
      exact phase2_congr hw htok rest hrest out tl

theorem InflectImpl_congr {inf1 inf2 : Inflector}
    (hw : wdEquiv inf1.word_dict inf2.word_dict) (phrase : String)
    (ops : List Op) (hops : ∀ op ∈ ops, op.2.1 ≠ "a") :
    InflectImpl inf1 phrase ops = InflectImpl inf2 phrase ops := by
  have hda : attrsEquiv (inflectDa inf1 phrase) (inflectDa inf2 phrase) :=
    hw (canon phrase) (canon_colonFree phrase)
  have hp1 : inflectP1 inf1 phrase ops = inflectP1 inf2 phrase ops := by
    unfold inflectP1
    exact phase1_congr hda ops hops _ _
  have hout2 : inflectOut2 inf1 phrase ops = inflectOut2 inf2 phrase ops := by
    unfold inflectOut2
    rw [hp1]
  have hout3 : inflectOut3 inf1 phrase ops = inflectOut3 inf2 phrase ops := by
    unfold inflectOut3
    rw [hout2, hda.1]
  unfold InflectImpl
  rw [hp1, hout3,
    phase2_congr hw (fun t ht => tokenize_colonFree t ht) ops hops _ _]

/-- C9 (amended): for every pair of data sources whose lines pairwise
share the base-form field and the same non-`a` fields in order (with
`a:value` fields freely inserted, removed or changed, as long as they
never decide whether a line reaches the two-field minimum), the loaded
stores return identical results for every call of Inflect and
InflectNoun/Verb/Adjective/Adverb, with either fallback setting.
`Search` and `LookupPhraseInfo` genuinely depend on `a` entries (see the
counterexample), so they are excluded. -/
theorem C9_amended (s1 s2 : List String) (inf1 inf2 : Inflector)
    (heq : List.Forall₂ lineEquiv s1 s2)
    (h1 : loadInflector s1 = some inf1) (h2 : loadInflector s2 = some inf2) :
    ∀ phrase fbgen,
      InflectNoun inf1 phrase fbgen = InflectNoun inf2 phrase fbgen ∧
      InflectVerb inf1 phrase fbgen = InflectVerb inf2 phrase fbgen ∧
      InflectAdjective inf1 phrase fbgen = InflectAdjective inf2 phrase fbgen ∧
      InflectAdverb inf1 phrase fbgen = InflectAdverb inf2 phrase fbgen ∧
      Inflect inf1 phrase fbgen = Inflect inf2 phrase fbgen := by
  have hw : wdEquiv inf1.word_dict inf2.word_dict :=
    loadFrom_wdEquiv heq (fun key _ => attrsEquiv_refl _) h1 h2
  intro phrase fbgen
  refine ⟨?_, ?_, ?_, ?_, ?_⟩
  · unfold InflectNoun
    exact InflectImpl_congr hw phrase _ (by cases fbgen <;> decide)
  · unfold InflectVerb
    exact InflectImpl_congr hw phrase _ (by cases fbgen <;> decide)
  · unfold InflectAdjective
    exact InflectImpl_congr hw phrase _ (by cases fbgen <;> decide)
  · unfold InflectAdverb
    exact InflectImpl_congr hw phrase _ (by cases fbgen <;> decide)
  · unfold Inflect
    exact InflectImpl_congr hw phrase _ (by cases fbgen <;> decide)

def infC9a : Inflector :=
  ⟨[("run", ⟨[("a", ["running"])], some 3⟩)], [("running", ["run"])]⟩

def infC9b : Inflector := ⟨[("run", ⟨[], some 3⟩)], []⟩

theorem C9_amended_witness :
    InflectNoun infC9a "run" false = InflectNoun infC9b "run" false ∧
    InflectVerb infC9a "run" false = InflectVerb infC9b "run" false ∧
    InflectAdjective infC9a "run" false = InflectAdjective infC9b "run" false ∧
    InflectAdverb infC9a "run" false = InflectAdverb infC9b "run" false ∧
    Inflect infC9a "run" false = Inflect infC9b "run" false :=
  C9_amended ["run\ti:3.0\ta:running"] ["run\ti:3.0"] infC9a infC9b
    (List.Forall₂.cons
      ⟨"run", ["i:3.0", "a:running"], ["i:3.0"], by decide, by decide,
        AEquivFields.cons "i:3.0"
          (AEquivFields.left (by decide) AEquivFields.nil),
        by simp⟩
      List.Forall₂.nil)
    (by decide) (by decide) "run" false
